import Mathlib

/-!
# Verification of the bill-of-materials engine

Shallow embedding of `Engine.BillOfMaterials` and `topologicalSort` from
`internal/crafting/engine` (file `src/unnamed/part_007`) of the
spacemolt-crafting-server repository, together with the domain types from
`pkg/crafting` (file `src/unnamed/part_002`).

Modelling conventions:
* Go `int` is modelled as `Int` (all quantities in the claims are far from
  the 64-bit boundary, so wrap-around is irrelevant).
* Go `map` values are modelled as association lists (`List (String × α)`)
  whose keys are kept distinct by `alistInsert`; the *content* of the map is
  the association, while the *iteration order* of a Go map is unspecified,
  so every place the source ranges over a map in an order-sensitive way
  takes an explicit iteration-order parameter (a permutation of the keys).
* `int(math.Ceil(float64(d)/float64(q)))` is modelled as exact integer
  ceiling division (`ceilRuns`); for the positive ranges the catalog data
  model allows (`quantity > 0`, demand within float64-exact integers) the
  float computation coincides with the exact ceiling.
* The recursion of `dfs` and of Kahn's queue loop is made structural with a
  fuel parameter; the pipeline instantiates the fuel with a bound that
  dominates the recursion depth / iteration count of the Go original.
* Fields of `Recipe` that `BillOfMaterials` never reads (`Description`,
  `Category`, `SkillsRequired`) are omitted.
-/

/-- `RecipeComponent` from pkg/crafting: a required input of a recipe. -/
structure RecipeComponent where
  componentID : String
  quantity : Int
deriving DecidableEq, Repr

/-- `RecipeOutput` from pkg/crafting: what a recipe produces. -/
structure RecipeOutput where
  itemID : String
  quantity : Int
deriving DecidableEq, Repr

/-- `Recipe` from pkg/crafting (fields unused by BillOfMaterials omitted). -/
structure Recipe where
  id : String
  name : String
  craftTimeSec : Int
  components : List RecipeComponent
  output : RecipeOutput
deriving DecidableEq, Repr

/-- `BillOfMaterialsRequest` from pkg/crafting. -/
structure BillOfMaterialsRequest where
  recipeID : String
  quantity : Int
deriving DecidableEq, Repr

/-- `BOMItem` from pkg/crafting: a raw-material requirement. -/
structure BOMItem where
  itemID : String
  quantity : Int
deriving DecidableEq, Repr

/-- `BOMIntermediate` from pkg/crafting. -/
structure BOMIntermediate where
  itemID : String
  recipeID : String
  recipeName : String
  craftRuns : Int
  totalProduced : Int
  totalNeeded : Int
deriving DecidableEq, Repr

/-- `BOMCraftStep` from pkg/crafting. -/
structure BOMCraftStep where
  stepNumber : Int
  recipeID : String
  recipeName : String
  craftRuns : Int
  outputItemID : String
  outputPerRun : Int
deriving DecidableEq, Repr

/-- `BillOfMaterialsResponse` from pkg/crafting. -/
structure BillOfMaterialsResponse where
  recipeID : String
  recipeName : String
  outputItemID : String
  quantity : Int
  rawMaterials : List BOMItem
  intermediates : List BOMIntermediate
  craftSteps : List BOMCraftStep
  totalCraftTime : Int
deriving DecidableEq, Repr

/-- The error outcomes of `Engine.BillOfMaterials`.  `recipeNotFound` is the
"recipe not found: %s" return, `dfsCycle` the "cycle detected: item %s has
circular dependency" return inside `dfs`, `topoCycle` the
"topological sort: cycle detected in recipe dependencies" return, and
`fuelExhausted` is an artifact of the fueled embedding (the Go recursion has
no such case; the pipeline's fuel bounds are large enough that it is
unreachable on the executions the theorems speak about). -/
inductive BOMError where
  | recipeNotFound (id : String)
  | dfsCycle (item : String)
  | topoCycle
  | fuelExhausted
deriving DecidableEq, Repr

deriving instance DecidableEq for Except

/-! ## Association lists standing for Go maps -/

/-- Map lookup: `m[k]` (presence view). -/
def alistLookup {α : Type} : List (String × α) → String → Option α
  | [], _ => none
  | (k, v) :: rest, key => if key = k then some v else alistLookup rest key

/-- Map assignment `m[k] = v`: replaces the entry when the key is present,
appends it otherwise, so keys stay distinct. -/
def alistInsert {α : Type} : List (String × α) → String → α → List (String × α)
  | [], key, val => [(key, val)]
  | (k, v) :: rest, key, val =>
      if key = k then (key, val) :: rest else (k, v) :: alistInsert rest key val

/-- Map deletion `delete(m, k)`. -/
def alistErase {α : Type} : List (String × α) → String → List (String × α)
  | [], _ => []
  | (k, v) :: rest, key => if key = k then rest else (k, v) :: alistErase rest key

/-- The keys of the association list, in insertion order. -/
def alistKeys {α : Type} (m : List (String × α)) : List String := m.map Prod.fst

/-! ## String comparison -/

/-- Lexicographic comparison of character lists. -/
def strLtChars : List Char → List Char → Bool
  | [], [] => false
  | [], _ :: _ => true
  | _ :: _, [] => false
  | c :: cs, d :: ds => if c < d then true else if d < c then false else strLtChars cs ds

/-- Go's `<` on strings (byte-lexicographic; identical to codepoint-
lexicographic comparison on the ASCII identifiers of this domain).  Defined
structurally so that the kernel can evaluate it. -/
def strLt (s t : String) : Bool := strLtChars s.data t.data

/-! ## Canonical producer selection (part_007 lines 36–76) -/

/-- The comparison of part_007 lines 56–71: `true` when the new recipe should
replace the existing one (shorter craft time, then higher output quantity,
then lexicographically smaller recipe id). -/
def betterRecipe (newR existing : Recipe) : Bool :=
  if newR.craftTimeSec < existing.craftTimeSec then true
  else if newR.craftTimeSec = existing.craftTimeSec then
    if existing.output.quantity < newR.output.quantity then true
    else if newR.output.quantity = existing.output.quantity then
      strLt newR.id existing.id
    else false
  else false

/-- One step of the `outputToRecipe` construction (part_007 lines 47–76). -/
def outputToRecipeStep (m : List (String × Recipe)) (r : Recipe) : List (String × Recipe) :=
  match alistLookup m r.output.itemID with
  | none => alistInsert m r.output.itemID r
  | some existing =>
      if betterRecipe r existing then alistInsert m r.output.itemID r else m

/-- The `outputToRecipe` map built by folding over `allRecipes` in slice
order (part_007 lines 46–76). -/
def buildOutputToRecipe (allRecipes : List Recipe) : List (String × Recipe) :=
  allRecipes.foldl outputToRecipeStep []

/-! ## Dependency discovery via DFS (part_007 lines 78–123) -/

/-- The mutable state threaded through `dfs`: the `visited` and `pathStack`
sets and the `craftableItems` map. -/
structure DfsState where
  visited : List String
  pathStack : List String
  craftable : List (String × Recipe)
deriving Repr

/-- One inner list-recursion layer of `dfs`: run `visit` (the recursive call
at the next fuel level) over each component id in order, aborting at the
first error — the `for _, comp := range recipe.Components` loop of `dfs`
(part_007 lines 107–111). -/
def dfsFold (visit : String → DfsState → Except BOMError DfsState) :
    List String → DfsState → Except BOMError DfsState
  | [], st => .ok st
  | c :: cs, st =>
    match visit c st with
    | .error e => .error e
    | .ok st1 => dfsFold visit cs st1

/-- `dfs` from part_007 lines 84–115, with fuel making the recursion
structural (the Go recursion terminates because `visited` grows; the
pipeline's `dfsFuel` dominates the recursion depth).  The guard order is
exactly the source's: `visited` first, then `pathStack`. -/
def dfs (out2r : String → Option Recipe) : Nat → String → DfsState →
    Except BOMError DfsState
  | 0, _, _ => .error .fuelExhausted
  | fuel + 1, itemID, st =>
    if itemID ∈ st.visited then .ok st
    else if itemID ∈ st.pathStack then .error (.dfsCycle itemID)
    else
      let st1 : DfsState :=
        { st with visited := itemID :: st.visited, pathStack := itemID :: st.pathStack }
      match out2r itemID with
      | none => .ok { st1 with pathStack := st1.pathStack.erase itemID }
      | some recipe =>
        let st2 : DfsState := { st1 with craftable := alistInsert st1.craftable itemID recipe }
        match dfsFold (dfs out2r fuel) (recipe.components.map RecipeComponent.componentID) st2 with
        | .error e => .error e
        | .ok st3 => .ok { st3 with pathStack := st3.pathStack.erase itemID }

/-- The top-level loop over the target's components (part_007 lines
119–123): each iteration calls `dfs` with the full fuel. -/
def dfsComps (out2r : String → Option Recipe) (fuel : Nat) :
    List String → DfsState → Except BOMError DfsState :=
  dfsFold (dfs out2r fuel)

/-! ## Topological sort (part_007 lines 239–290) -/

/-- `inDegree[k]++` on a Go map (absent keys read as 0). -/
def alistIncr (m : List (String × Int)) (k : String) : List (String × Int) :=
  alistInsert m k (((alistLookup m k).getD 0) + 1)

/-- `adjacency[comp] = append(adjacency[comp], itemID)` on a Go map. -/
def alistAppendDep (m : List (String × List String)) (k v : String) :
    List (String × List String) :=
  alistInsert m k (((alistLookup m k).getD []) ++ [v])

/-- The body of the first loop of `topologicalSort` (lines 246–258) for a
single `itemID` of the `craftable` map: ensure an in-degree entry exists,
then record an edge for every craftable component. -/
def buildStep (craftable : List (String × Recipe))
    (st : List (String × Int) × List (String × List String)) (itemID : String) :
    List (String × Int) × List (String × List String) :=
  match alistLookup craftable itemID with
  | none => st
  | some recipe =>
    let inDeg1 := if (alistLookup st.1 itemID).isSome then st.1 else alistInsert st.1 itemID 0
    recipe.components.foldl
      (fun st2 comp =>
        if (alistLookup craftable comp.componentID).isSome then
          (alistIncr st2.1 itemID, alistAppendDep st2.2 comp.componentID itemID)
        else st2)
      (inDeg1, st.2)

/-- The in-degree and adjacency maps of `topologicalSort` (lines 242–258);
`iterC` is the order in which Go happens to enumerate the `craftable` map. -/
def buildInDeg (craftable : List (String × Recipe)) (iterC : List String) :
    List (String × Int) × List (String × List String) :=
  iterC.foldl (buildStep craftable) ([], [])

/-- The inner `for _, dependent := range adjacency[current]` loop (lines
276–281): decrement each dependent's in-degree and collect, in order, those
that reach exactly 0 (they are appended to the queue). -/
def processDeps (inDeg : List (String × Int)) : List String →
    List (String × Int) × List String
  | [] => (inDeg, [])
  | d :: ds =>
    let v := ((alistLookup inDeg d).getD 0) - 1
    let inDeg1 := alistInsert inDeg d v
    let r := processDeps inDeg1 ds
    (r.1, (if v = 0 then [d] else []) ++ r.2)

/-- The Kahn queue loop of `topologicalSort` (lines 269–282), fueled.  Returns
the final `sorted` list together with the remaining queue and in-degree map
(the Go loop runs until the queue is empty; the pipeline's fuel dominates the
iteration count, see `kahnMeasure`). -/
def kahnLoop (adj : List (String × List String)) :
    Nat → List (String × Int) → List String → List String →
    List String × List String × List (String × Int)
  | 0, inDeg, queue, sorted => (sorted, queue, inDeg)
  | fuel + 1, inDeg, queue, sorted =>
    match queue with
    | [] => (sorted, [], inDeg)
    | current :: rest =>
      let pd := processDeps inDeg ((alistLookup adj current).getD [])
      kahnLoop adj fuel pd.1 (rest ++ pd.2) (sorted ++ [current])

/-- Each iteration of the Go queue loop strictly decreases
`queue length + Σ max(inDegree, 0)`, so this initial value bounds the number
of iterations; it is the fuel the pipeline hands to `kahnLoop`. -/
def kahnMeasure (inDeg : List (String × Int)) (queue : List String) : Nat :=
  queue.length + (inDeg.map (fun p => p.2.toNat)).sum

/-- `topologicalSort` from part_007 lines 241–290.  `iterC` and `iterD` are
the orders in which Go enumerates the `craftable` map (first loop) and the
`inDegree` map (initial-queue loop); both are permutations of the craftable
keys in any real execution. -/
def topologicalSort (craftable : List (String × Recipe)) (iterC iterD : List String) :
    Except BOMError (List String) :=
  let built := buildInDeg craftable iterC
  let queue0 := iterD.filter (fun k => (alistLookup built.1 k).getD 0 = 0)
  let run := kahnLoop built.2 (kahnMeasure built.1 queue0) built.1 queue0 []
  if run.1.length = craftable.length then .ok run.1 else .error .topoCycle

/-! ## Demand propagation (part_007 lines 131–158) -/

/-- Exact integer ceiling division, the model of
`int(math.Ceil(float64(d) / float64(q)))` (part_007 line 151) for `q ≥ 1`. -/
def ceilRuns (d q : Int) : Int := (d + q - 1) / q

/-- One iteration of the demand loop (lines 143–158) for `itemID`. -/
def demandStep (craftable : List (String × Recipe))
    (st : List (String × Int) × List (String × Int)) (itemID : String) :
    List (String × Int) × List (String × Int) :=
  match alistLookup craftable itemID with
  | none => st
  | some recipe =>
    let d := (alistLookup st.1 itemID).getD 0
    if d = 0 then st
    else
      let n := ceilRuns d recipe.output.quantity
      let dem := recipe.components.foldl
        (fun dm comp =>
          alistInsert dm comp.componentID
            (((alistLookup dm comp.componentID).getD 0) + n * comp.quantity))
        st.1
      (dem, alistInsert st.2 itemID n)

/-- The demand / craft-runs tables: demand of the target starts at the
(normalized) requested quantity, then items are processed in top-down order
(lines 139–158).  Result: `(demand, craftRuns)`. -/
def demandPhase (craftable : List (String × Recipe)) (topDown : List String)
    (targetItem : String) (qty : Int) :
    List (String × Int) × List (String × Int) :=
  topDown.foldl (demandStep craftable) ([(targetItem, qty)], [])

/-! ## Plan assembly (part_007 lines 160–236) -/

/-- Insertion into a list sorted ascending by `key`; together with
`sortByKey` this models `sort.Slice(_, func(i,j) { return key i < key j })`
(the comparator is a strict total order on the distinct keys involved, so
every correct sort produces this unique result). -/
def insertSorted {α : Type} (key : α → String) (x : α) : List α → List α
  | [] => [x]
  | y :: ys => if strLt (key x) (key y) then x :: y :: ys else y :: insertSorted key x ys

/-- Sort ascending by `key` (model of the two `sort.Slice` calls,
part_007 lines 170–172 and 195–197). -/
def sortByKey {α : Type} (key : α → String) (l : List α) : List α :=
  l.foldr (insertSorted key) []

/-- Raw materials (lines 160–172): demand entries with no craftable recipe
and positive quantity, sorted by item id.  The demand map is enumerated in
insertion order; since the result is a sort of a set of entries with
distinct keys, the enumeration order is immaterial. -/
def rawMaterialsOf (craftable : List (String × Recipe)) (demand : List (String × Int)) :
    List BOMItem :=
  sortByKey BOMItem.itemID
    ((demand.filter
        (fun p => (alistLookup craftable p.1).isNone ∧ 0 < p.2)).map
      (fun p => { itemID := p.1, quantity := p.2 }))

/-- Intermediates (lines 174–197): craftable items with nonzero craft runs,
the target excluded, sorted by item id.  The craftable map is enumerated in
insertion order; as for raw materials, the sort makes the order immaterial. -/
def intermediatesOf (craftable : List (String × Recipe)) (demand runs : List (String × Int))
    (targetItem : String) : List BOMIntermediate :=
  sortByKey BOMIntermediate.itemID
    ((craftable.filter
        (fun p => ¬ ((alistLookup runs p.1).getD 0 = 0) ∧ ¬ (p.1 = targetItem))).map
      (fun p =>
        { itemID := p.1
          recipeID := p.2.id
          recipeName := p.2.name
          craftRuns := (alistLookup runs p.1).getD 0
          totalProduced := ((alistLookup runs p.1).getD 0) * p.2.output.quantity
          totalNeeded := (alistLookup demand p.1).getD 0 }))

/-- Craft steps (lines 199–218): walk `sortedBottomUp`, emitting a numbered
step for every item with nonzero craft runs. -/
def craftStepsOf (craftable : List (String × Recipe)) (runs : List (String × Int)) :
    List String → Int → List BOMCraftStep
  | [], _ => []
  | itemID :: rest, stepNum =>
    match alistLookup craftable itemID with
    | none => craftStepsOf craftable runs rest stepNum
    | some recipe =>
      let n := (alistLookup runs itemID).getD 0
      if n = 0 then craftStepsOf craftable runs rest stepNum
      else
        { stepNumber := stepNum
          recipeID := recipe.id
          recipeName := recipe.name
          craftRuns := n
          outputItemID := recipe.output.itemID
          outputPerRun := recipe.output.quantity } :: craftStepsOf craftable runs rest (stepNum + 1)

/-- Total craft time (lines 220–225): `Σ craftTime × runs` over the craft-runs
map (a commutative sum, so the enumeration order is immaterial). -/
def totalTimeOf (craftable : List (String × Recipe)) (runs : List (String × Int)) : Int :=
  runs.foldl
    (fun acc p =>
      acc + (((alistLookup craftable p.1).map Recipe.craftTimeSec).getD 0) * p.2) 0

/-! ## The full pipeline -/

/-- `GetRecipe` of the recipe store: lookup by recipe id. -/
def getRecipe (catalog : List Recipe) (id : String) : Option Recipe :=
  catalog.find? (fun r => r.id = id)

/-- Fuel for `dfs`: one more than the total number of component occurrences
in the catalog, which dominates the recursion depth (every nested call marks
a previously unvisited component id as visited). -/
def dfsFuel (catalog : List Recipe) : Nat :=
  1 + (catalog.map (fun r => r.components.length)).sum

/-- The internal tables produced by a successful run, before assembly. -/
structure BOMState where
  targetRecipe : Recipe
  qty : Int
  craftable : List (String × Recipe)
  sortedBottomUp : List String
  demand : List (String × Int)
  runs : List (String × Int)
deriving Repr

/-- The computation of `Engine.BillOfMaterials` (part_007 lines 15–158) up to
and including demand propagation.  `shuffleC` and `shuffleD` turn the
insertion-order key list of the craftable map into the orders in which Go
enumerates the `craftable` and `inDegree` maps inside `topologicalSort`
(any permutation can occur in a real execution). -/
def bomCore (catalog : List Recipe) (req : BillOfMaterialsRequest)
    (shuffleC shuffleD : List String → List String) : Except BOMError BOMState :=
  let qty := if req.quantity ≤ 0 then 1 else req.quantity
  match getRecipe catalog req.recipeID with
  | none => .error (.recipeNotFound req.recipeID)
  | some targetRecipe =>
    let out2r := buildOutputToRecipe catalog
    let st0 : DfsState :=
      { visited := [], pathStack := [],
        craftable := [(targetRecipe.output.itemID, targetRecipe)] }
    match dfsComps (alistLookup out2r) (dfsFuel catalog)
        (targetRecipe.components.map RecipeComponent.componentID) st0 with
    | .error e => .error e
    | .ok st1 =>
      match topologicalSort st1.craftable (shuffleC (alistKeys st1.craftable))
          (shuffleD (alistKeys st1.craftable)) with
      | .error e => .error e
      | .ok sortedBottomUp =>
        let tables := demandPhase st1.craftable sortedBottomUp.reverse
          targetRecipe.output.itemID qty
        .ok { targetRecipe := targetRecipe, qty := qty, craftable := st1.craftable,
              sortedBottomUp := sortedBottomUp, demand := tables.1, runs := tables.2 }

/-- Assembly of the response (part_007 lines 160–236). -/
def bomAssemble (st : BOMState) : BillOfMaterialsResponse :=
  { recipeID := st.targetRecipe.id
    recipeName := st.targetRecipe.name
    outputItemID := st.targetRecipe.output.itemID
    quantity := st.qty
    rawMaterials := rawMaterialsOf st.craftable st.demand
    intermediates := intermediatesOf st.craftable st.demand st.runs st.targetRecipe.output.itemID
    craftSteps := craftStepsOf st.craftable st.runs st.sortedBottomUp 1
    totalCraftTime := totalTimeOf st.craftable st.runs }

/-- `Engine.BillOfMaterials` (part_007 lines 15–237). -/
def billOfMaterials (catalog : List Recipe) (req : BillOfMaterialsRequest)
    (shuffleC shuffleD : List String → List String) :
    Except BOMError BillOfMaterialsResponse :=
  (bomCore catalog req shuffleC shuffleD).map bomAssemble

/-! ## Concrete catalogs used by the claims -/

/-- The literal catalog of spec §8 property 7 (recipe ids for the three
producers named as in the repository README example). -/
def scannerCatalog : List Recipe :=
  [ { id := "craft_scanner_1", name := "Scanner I", craftTimeSec := 12,
      components := [⟨"sensor_unit", 1⟩, ⟨"refined_circuits", 2⟩, ⟨"ore_crystal", 3⟩],
      output := ⟨"scanner_1", 1⟩ },
    { id := "craft_sensor_unit", name := "Sensor Unit", craftTimeSec := 10,
      components := [⟨"refined_circuits", 1⟩, ⟨"crystal_lens", 1⟩, ⟨"ore_copper", 3⟩],
      output := ⟨"sensor_unit", 1⟩ },
    { id := "refine_circuits", name := "Refine Circuits", craftTimeSec := 5,
      components := [⟨"ore_copper", 6⟩, ⟨"ore_silicon", 3⟩],
      output := ⟨"refined_circuits", 2⟩ },
    { id := "grind_lens", name := "Grind Lens", craftTimeSec := 8,
      components := [⟨"ore_crystal", 8⟩, ⟨"ore_palladium", 2⟩],
      output := ⟨"crystal_lens", 1⟩ } ]

/-- Two mutually dependent recipes: the output of each is a component of the
other. -/
def cycle2Catalog : List Recipe :=
  [ { id := "recipe_a", name := "A", craftTimeSec := 1,
      components := [⟨"item_y", 1⟩], output := ⟨"item_x", 1⟩ },
    { id := "recipe_b", name := "B", craftTimeSec := 1,
      components := [⟨"item_x", 1⟩], output := ⟨"item_y", 1⟩ } ]

/-- `cycle2Catalog` plus a cheaper alternative producer of `item_y`; the
canonical selector picks the alternative, so no cycle is reachable from
`recipe_a`. -/
def cycle3Catalog : List Recipe :=
  cycle2Catalog ++
  [ { id := "recipe_c", name := "C", craftTimeSec := 0,
      components := [], output := ⟨"item_y", 1⟩ } ]

/-! ## C1: the §8 end-to-end scenario -/

/-- C1 counterexample: on the literal §8 catalog the program does **not**
return the raw materials `ore_copper:9, ore_silicon:6, ore_crystal:11,
ore_palladium:4` with `total_craft_time_sec = 35` that the spec promises. -/
theorem c1_spec_values_refuted :
    (billOfMaterials scannerCatalog ⟨"craft_scanner_1", 1⟩ id id).toOption.map
        (fun r => (r.rawMaterials, r.totalCraftTime)) ≠
      some ([⟨"ore_copper", 9⟩, ⟨"ore_crystal", 11⟩, ⟨"ore_palladium", 4⟩,
             ⟨"ore_silicon", 6⟩], 35) := by
  decide

/-- C1 amended: on the literal §8 catalog, `BillOfMaterials("craft_scanner_1", 1)`
returns raw materials `ore_copper:15, ore_silicon:6, ore_crystal:11,
ore_palladium:2` (sorted ascending by item id) and `total_craft_time_sec = 40`:
refined circuits demand is 3, output 2 per run, hence 2 runs, 12 extra copper,
6 silicon and 10 s of the 40 s total. -/
theorem c1_actual_values :
    (billOfMaterials scannerCatalog ⟨"craft_scanner_1", 1⟩ id id).toOption.map
        (fun r => (r.rawMaterials, r.totalCraftTime)) =
      some ([⟨"ore_copper", 15⟩, ⟨"ore_crystal", 11⟩, ⟨"ore_palladium", 2⟩,
             ⟨"ore_silicon", 6⟩], 40) := by
  decide

/-! ## C2: determinism under map iteration order -/

/-- C2: the order in which the topological sequencer emits tied items *does*
depend on the iteration order of the `craftable` / `inDegree` Go maps: on the
§8 catalog, enumerating the `inDegree` map in insertion order versus reversed
insertion order swaps craft steps 1 and 2 (`refined_circuits` vs
`crystal_lens`, which are simultaneously ready), so two executions that
differ only in map enumeration order return different results. -/
theorem c2_iteration_order_dependent :
    billOfMaterials scannerCatalog ⟨"craft_scanner_1", 1⟩ id id ≠
      billOfMaterials scannerCatalog ⟨"craft_scanner_1", 1⟩ id List.reverse ∧
    (billOfMaterials scannerCatalog ⟨"craft_scanner_1", 1⟩ id id).toOption.map
        (fun r => r.craftSteps.map BOMCraftStep.outputItemID) =
      some ["refined_circuits", "crystal_lens", "sensor_unit", "scanner_1"] ∧
    (billOfMaterials scannerCatalog ⟨"craft_scanner_1", 1⟩ id List.reverse).toOption.map
        (fun r => r.craftSteps.map BOMCraftStep.outputItemID) =
      some ["crystal_lens", "refined_circuits", "sensor_unit", "scanner_1"] := by
  have hb : (billOfMaterials scannerCatalog ⟨"craft_scanner_1", 1⟩ id id).toOption.map
      (fun r => r.craftSteps.map BOMCraftStep.outputItemID) =
      some ["refined_circuits", "crystal_lens", "sensor_unit", "scanner_1"] := by decide
  have hc : (billOfMaterials scannerCatalog ⟨"craft_scanner_1", 1⟩ id List.reverse).toOption.map
      (fun r => r.craftSteps.map BOMCraftStep.outputItemID) =
      some ["crystal_lens", "refined_circuits", "sensor_unit", "scanner_1"] := by decide
  refine ⟨?_, hb, hc⟩
  intro heq
  have h2 := congrArg
    (fun x : Except BOMError BillOfMaterialsResponse =>
      x.toOption.map (fun r => r.craftSteps.map BOMCraftStep.outputItemID)) heq
  simp only at h2
  rw [hb, hc] at h2
  simp at h2

/-! ## C3: where a cycle is actually reported -/

/-- C3: on a two-recipe cycle the computation does **not** fail inside the
dependency traversal with the offending item's identifier: `dfs` marks an
item `visited` before pushing it on `pathStack` and checks `visited` first,
so the revisit of an on-path item returns nil and the error surfaces only
later, from `topologicalSort`, as the generic `topoCycle` error (no item id). -/
theorem c3_cycle_reported_by_toposort_not_dfs :
    billOfMaterials cycle2Catalog ⟨"recipe_a", 1⟩ id id = .error .topoCycle ∧
    ∀ item : String,
      billOfMaterials cycle2Catalog ⟨"recipe_a", 1⟩ id id ≠ .error (.dfsCycle item) := by
  have hval : billOfMaterials cycle2Catalog ⟨"recipe_a", 1⟩ id id = .error .topoCycle := by
    decide
  refine ⟨hval, ?_⟩
  intro item h
  rw [hval] at h
  exact BOMError.noConfusion (Except.error.inj h)

/-! ## C9: non-positive quantities are normalized, not rejected -/

/-- An `Except.map` returning `ok` comes from an `ok` of the mapped
computation. -/
theorem except_map_ok {α β γ : Type} (f : β → γ) (e : Except α β) (c : γ)
    (h : e.map f = .ok c) : ∃ b, e = .ok b ∧ f b = c := by
  cases e with
  | error a => exact absurd h (by simp [Except.map])
  | ok b => exact ⟨b, rfl, by simpa [Except.map] using h⟩

/-- A successful `bomCore` records the normalized quantity. -/
theorem bomCore_ok_qty (catalog : List Recipe) (req : BillOfMaterialsRequest)
    (sC sD : List String → List String) (st : BOMState)
    (h : bomCore catalog req sC sD = .ok st) :
    st.qty = if req.quantity ≤ 0 then 1 else req.quantity := by
  simp only [bomCore] at h
  split at h
  · exact Except.noConfusion h
  · split at h
    · exact Except.noConfusion h
    · split at h
      · exact Except.noConfusion h
      · cases h
        rfl

/-- C9: a request with quantity ≤ 0 is not an error case: the quantity is
normalized to 1 before computation, the result is identical to a request for
quantity 1, and the `Quantity` field of a successful response is the
normalized 1, not the requested value. -/
theorem c9_nonpositive_quantity_normalized (catalog : List Recipe)
    (req : BillOfMaterialsRequest) (sC sD : List String → List String)
    (h : req.quantity ≤ 0) :
    billOfMaterials catalog req sC sD =
      billOfMaterials catalog ⟨req.recipeID, 1⟩ sC sD ∧
    ∀ resp, billOfMaterials catalog req sC sD = .ok resp → resp.quantity = 1 := by
  have hcore : bomCore catalog req sC sD = bomCore catalog ⟨req.recipeID, 1⟩ sC sD := by
    simp only [bomCore, if_pos h]
    norm_num
  refine ⟨by simp only [billOfMaterials, hcore], ?_⟩
  intro resp hok
  simp only [billOfMaterials] at hok
  obtain ⟨st, hst, hassemble⟩ := except_map_ok _ _ _ hok
  have hq := bomCore_ok_qty _ _ _ _ _ hst
  rw [if_pos h] at hq
  rw [← hassemble]
  simpa [bomAssemble] using hq

/-- Witness for C9 at a concrete input (quantity 0 on a one-recipe target). -/
theorem c9_witness :
    (0 : Int) ≤ 0 ∧
    (billOfMaterials cycle3Catalog ⟨"recipe_c", 0⟩ id id =
        billOfMaterials cycle3Catalog ⟨"recipe_c", 1⟩ id id ∧
      ∀ resp, billOfMaterials cycle3Catalog ⟨"recipe_c", 0⟩ id id = .ok resp →
        resp.quantity = 1) :=
  ⟨by decide, c9_nonpositive_quantity_normalized cycle3Catalog ⟨"recipe_c", 0⟩ id id (by decide)⟩

/-! ## Association-list lemmas -/

theorem alistLookup_insert_self {α : Type} (m : List (String × α)) (k : String) (v : α) :
    alistLookup (alistInsert m k v) k = some v := by
  induction m with
  | nil => simp [alistInsert, alistLookup]
  | cons p rest ih =>
    by_cases h : k = p.1
    · simp [alistInsert, alistLookup, h]
    · simp [alistInsert, alistLookup, h, ih]

theorem alistLookup_insert_ne {α : Type} (m : List (String × α)) (k k' : String) (v : α)
    (h : k' ≠ k) : alistLookup (alistInsert m k v) k' = alistLookup m k' := by
  induction m with
  | nil => simp [alistInsert, alistLookup, h]
  | cons p rest ih =>
    by_cases hk : k = p.1
    · subst hk
      simp [alistInsert, alistLookup, h]
    · by_cases hk' : k' = p.1 <;> simp [alistInsert, alistLookup, hk, hk', ih]

theorem alistLookup_isSome_iff {α : Type} (m : List (String × α)) (k : String) :
    (alistLookup m k).isSome ↔ k ∈ alistKeys m := by
  induction m with
  | nil => simp [alistLookup, alistKeys]
  | cons p rest ih =>
    by_cases h : k = p.1 <;> simp [alistLookup, alistKeys, h, ih]

theorem alistLookup_eq_none_iff {α : Type} (m : List (String × α)) (k : String) :
    alistLookup m k = none ↔ k ∉ alistKeys m := by
  rw [← alistLookup_isSome_iff]
  cases alistLookup m k <;> simp

theorem alistLookup_mem {α : Type} (m : List (String × α)) (k : String) (v : α)
    (h : alistLookup m k = some v) : (k, v) ∈ m := by
  induction m with
  | nil => simp [alistLookup] at h
  | cons p rest ih =>
    by_cases hk : k = p.1
    · subst hk
      simp [alistLookup] at h
      simp [← h]
    · simp [alistLookup, hk] at h
      exact List.mem_cons_of_mem _ (ih h)

theorem alistKeys_cons {α : Type} (p : String × α) (m : List (String × α)) :
    alistKeys (p :: m) = p.1 :: alistKeys m := rfl

theorem alistInsert_cons {α : Type} (p : String × α) (m : List (String × α)) (k : String)
    (v : α) :
    alistInsert (p :: m) k v = if k = p.1 then (k, v) :: m else p :: alistInsert m k v := by
  cases p
  rfl

theorem alistKeys_insert_of_mem {α : Type} (m : List (String × α)) (k : String) (v : α)
    (h : k ∈ alistKeys m) : alistKeys (alistInsert m k v) = alistKeys m := by
  induction m with
  | nil => simp [alistKeys] at h
  | cons p rest ih =>
    by_cases hk : k = p.1
    · rw [alistInsert_cons, if_pos hk, alistKeys_cons, alistKeys_cons, hk]
    · rw [alistKeys_cons] at h
      rcases List.mem_cons.mp h with he | hm
      · exact absurd he hk
      · rw [alistInsert_cons, if_neg hk, alistKeys_cons, alistKeys_cons, ih hm]

theorem alistKeys_insert_of_notMem {α : Type} (m : List (String × α)) (k : String) (v : α)
    (h : k ∉ alistKeys m) : alistKeys (alistInsert m k v) = alistKeys m ++ [k] := by
  induction m with
  | nil => simp [alistInsert, alistKeys]
  | cons p rest ih =>
    rw [alistKeys_cons] at h
    simp only [List.mem_cons, not_or] at h
    rw [alistInsert_cons, if_neg h.1, alistKeys_cons, alistKeys_cons, ih h.2,
      List.cons_append]

theorem alistKeys_insert_nodup {α : Type} (m : List (String × α)) (k : String) (v : α)
    (h : (alistKeys m).Nodup) : (alistKeys (alistInsert m k v)).Nodup := by
  by_cases hk : k ∈ alistKeys m
  · rw [alistKeys_insert_of_mem m k v hk]; exact h
  · rw [alistKeys_insert_of_notMem m k v hk]
    simpa [List.nodup_append] using ⟨h, hk⟩

theorem alistKeys_insert_sub {α : Type} (m : List (String × α)) (k : String) (v : α) :
    ∀ x ∈ alistKeys (alistInsert m k v), x ∈ alistKeys m ∨ x = k := by
  intro x hx
  by_cases hk : k ∈ alistKeys m
  · rw [alistKeys_insert_of_mem m k v hk] at hx; exact Or.inl hx
  · rw [alistKeys_insert_of_notMem m k v hk] at hx
    simpa using hx

theorem mem_alistKeys_insert {α : Type} (m : List (String × α)) (k : String) (v : α)
    (x : String) (hx : x ∈ alistKeys m) : x ∈ alistKeys (alistInsert m k v) := by
  by_cases hk : k ∈ alistKeys m
  · rw [alistKeys_insert_of_mem m k v hk]; exact hx
  · rw [alistKeys_insert_of_notMem m k v hk]; exact List.mem_append_left _ hx

theorem self_mem_alistKeys_insert {α : Type} (m : List (String × α)) (k : String) (v : α) :
    k ∈ alistKeys (alistInsert m k v) := by
  have := alistLookup_insert_self m k v
  have h2 := (alistLookup_isSome_iff (alistInsert m k v) k).mp (by simp [this])
  exact h2

/-! ## Order properties of the string comparison -/

theorem strLtChars_trans : ∀ (a b c : List Char), strLtChars a b = true →
    strLtChars b c = true → strLtChars a c = true := by
  intro a
  induction a with
  | nil =>
    intro b c hab hbc
    cases b with
    | nil => simp [strLtChars] at hab
    | cons y ys =>
      cases c with
      | nil => simp [strLtChars] at hbc
      | cons z zs => simp [strLtChars]
  | cons x xs ih =>
    intro b c hab hbc
    cases b with
    | nil => simp [strLtChars] at hab
    | cons y ys =>
      cases c with
      | nil => simp [strLtChars] at hbc
      | cons z zs =>
        simp only [strLtChars] at hab hbc ⊢
        by_cases hxy : x < y
        · by_cases hyz : y < z
          · simp [lt_trans hxy hyz]
          · by_cases hzy : z < y
            · simp [hyz, hzy] at hbc
            · have hyzeq : y = z := le_antisymm (not_lt.mp hzy) (not_lt.mp hyz)
              subst hyzeq
              simp [hxy]
        · by_cases hyx : y < x
          · simp [hxy, hyx] at hab
          · have hxyeq : x = y := le_antisymm (not_lt.mp hyx) (not_lt.mp hxy)
            subst hxyeq
            simp only [lt_irrefl, if_false] at hab
            by_cases hyz : x < z
            · simp [hyz]
            · by_cases hzy : z < x
              · simp [hyz, hzy] at hbc
              · have hxz : x = z := le_antisymm (not_lt.mp hzy) (not_lt.mp hyz)
                subst hxz
                simp only [lt_irrefl, if_false] at hbc ⊢
                exact ih _ _ hab hbc

theorem strLtChars_asymm : ∀ (a b : List Char), strLtChars a b = true →
    strLtChars b a = false := by
  intro a
  induction a with
  | nil =>
    intro b hab
    cases b with
    | nil => simp [strLtChars] at hab
    | cons y ys => simp [strLtChars]
  | cons x xs ih =>
    intro b hab
    cases b with
    | nil => simp [strLtChars] at hab
    | cons y ys =>
      simp only [strLtChars] at hab ⊢
      by_cases hxy : x < y
      · have hyx : ¬ y < x := lt_asymm hxy
        simp [hxy, hyx]
      · by_cases hyx : y < x
        · simp [hxy, hyx] at hab
        · simp only [hxy, hyx, if_false] at hab ⊢
          exact ih _ hab

theorem strLtChars_conn : ∀ (a b : List Char), strLtChars a b = false →
    strLtChars b a = false → a = b := by
  intro a
  induction a with
  | nil =>
    intro b hab _
    cases b with
    | nil => rfl
    | cons y ys => simp [strLtChars] at hab
  | cons x xs ih =>
    intro b hab hba
    cases b with
    | nil => simp [strLtChars] at hba
    | cons y ys =>
      simp only [strLtChars] at hab hba
      by_cases hxy : x < y
      · simp [hxy] at hab
      · by_cases hyx : y < x
        · simp [hyx, lt_asymm hyx] at hba
        · have hxyeq : x = y := le_antisymm (not_lt.mp hyx) (not_lt.mp hxy)
          subst hxyeq
          simp only [lt_irrefl, if_false] at hab hba
          rw [ih _ hab hba]

theorem strLt_trans (a b c : String) (hab : strLt a b = true) (hbc : strLt b c = true) :
    strLt a c = true :=
  strLtChars_trans _ _ _ hab hbc

theorem strLt_asymm (a b : String) (hab : strLt a b = true) : strLt b a = false :=
  strLtChars_asymm _ _ hab

theorem strLt_conn (a b : String) (hab : strLt a b = false) (hba : strLt b a = false) :
    a = b :=
  String.ext (strLtChars_conn _ _ hab hba)

theorem strLt_irrefl (a : String) : strLt a a = false := by
  cases h : strLt a a
  · rfl
  · rw [← h]
    exact strLt_asymm a a h

/-! ## Order properties of the recipe comparison -/

theorem betterRecipe_iff (a b : Recipe) : betterRecipe a b = true ↔
    (a.craftTimeSec < b.craftTimeSec ∨
     (a.craftTimeSec = b.craftTimeSec ∧ b.output.quantity < a.output.quantity) ∨
     (a.craftTimeSec = b.craftTimeSec ∧ a.output.quantity = b.output.quantity ∧
      strLt a.id b.id = true)) := by
  simp only [betterRecipe]
  split_ifs with h1 h2 h3 h4 <;> simp_all

theorem betterRecipe_trans (a b c : Recipe) (hab : betterRecipe a b = true)
    (hbc : betterRecipe b c = true) : betterRecipe a c = true := by
  rw [betterRecipe_iff] at hab hbc ⊢
  rcases hab with h | h | h <;> rcases hbc with g | g | g
  · exact Or.inl (lt_trans h g)
  · exact Or.inl (by omega)
  · exact Or.inl (by omega)
  · exact Or.inl (by omega)
  · exact Or.inr (Or.inl (by omega))
  · exact Or.inr (Or.inl (by omega))
  · exact Or.inl (by omega)
  · exact Or.inr (Or.inl (by omega))
  · exact Or.inr (Or.inr ⟨by omega, by omega, strLt_trans _ _ _ h.2.2 g.2.2⟩)

theorem betterRecipe_asymm (a b : Recipe) (hab : betterRecipe a b = true) :
    betterRecipe b a = false := by
  cases h : betterRecipe b a
  · rfl
  · rw [betterRecipe_iff] at hab h
    rcases hab with h1 | h1 | h1 <;> rcases h with h2 | h2 | h2
    · omega
    · omega
    · omega
    · omega
    · omega
    · omega
    · omega
    · omega
    · have := strLt_asymm _ _ h1.2.2
      rw [h2.2.2] at this
      exact Bool.noConfusion this

theorem betterRecipe_total (a b : Recipe) (h : a.id ≠ b.id) :
    betterRecipe a b = true ∨ betterRecipe b a = true := by
  rw [betterRecipe_iff, betterRecipe_iff]
  rcases lt_trichotomy a.craftTimeSec b.craftTimeSec with ht | ht | ht
  · exact Or.inl (Or.inl ht)
  · rcases lt_trichotomy a.output.quantity b.output.quantity with hq | hq | hq
    · exact Or.inr (Or.inr (Or.inl ⟨ht.symm, hq⟩))
    · cases hab : strLt a.id b.id
      · cases hba : strLt b.id a.id
        · exact absurd (strLt_conn _ _ hab hba) h
        · exact Or.inr (Or.inr (Or.inr ⟨ht.symm, hq.symm, rfl⟩))
      · exact Or.inl (Or.inr (Or.inr ⟨ht, hq, rfl⟩))
    · exact Or.inl (Or.inr (Or.inl ⟨ht, hq⟩))
  · exact Or.inr (Or.inl ht)

/-! ## Characterization of the canonical producer selection -/

/-- The accumulator step of the selection loop: keep the better of the
current choice and the newly seen producer. -/
def pickBetter (cur newR : Recipe) : Recipe := if betterRecipe newR cur then newR else cur

/-- The `outputToRecipe` entry for `k` is the fold of `pickBetter` over the
producers of `k`, in list order. -/
theorem buildOutputToRecipe_lookup (l : List Recipe) (k : String) :
    alistLookup (buildOutputToRecipe l) k =
      match l.filter (fun r => r.output.itemID == k) with
      | [] => none
      | r :: rs => some (rs.foldl pickBetter r) := by
  have main : ∀ (l : List Recipe) (m : List (String × Recipe)),
      alistLookup (l.foldl outputToRecipeStep m) k =
        match l.filter (fun r => r.output.itemID == k), alistLookup m k with
        | [], acc => acc
        | r :: rs, none => some (rs.foldl pickBetter r)
        | r :: rs, some cur => some ((r :: rs).foldl pickBetter cur) := by
    intro l
    induction l with
    | nil =>
      intro m
      simp only [List.foldl_nil, List.filter_nil]
    | cons r rest ih =>
      intro m
      rw [List.foldl_cons, ih]
      by_cases hk : r.output.itemID = k
      · have hfilter : (r :: rest).filter (fun s => s.output.itemID == k) =
            r :: rest.filter (fun s => s.output.itemID == k) := by
          simp [List.filter_cons, hk]
        rw [hfilter]
        have hlook : alistLookup (outputToRecipeStep m r) k =
            match alistLookup m k with
            | none => some r
            | some cur => some (pickBetter cur r) := by
          simp only [outputToRecipeStep, hk]
          cases hcur : alistLookup m k with
          | none => simp [alistLookup_insert_self, hk]
          | some cur =>
            simp only [pickBetter]
            by_cases hb : betterRecipe r cur
            · simp [hb, alistLookup_insert_self, hk]
            · simp [hb, hcur]
        rw [hlook]
        cases alistLookup m k with
        | none =>
          cases rest.filter (fun s => s.output.itemID == k) <;> simp [List.foldl_cons]
        | some cur =>
          cases rest.filter (fun s => s.output.itemID == k) <;> simp [List.foldl_cons]
      · have hfilter : (r :: rest).filter (fun s => s.output.itemID == k) =
            rest.filter (fun s => s.output.itemID == k) := by
          simp [List.filter_cons, hk]
        rw [hfilter]
        have hlook : alistLookup (outputToRecipeStep m r) k = alistLookup m k := by
          simp only [outputToRecipeStep]
          cases alistLookup m r.output.itemID with
          | none => exact alistLookup_insert_ne _ _ _ _ (fun he => hk he.symm)
          | some cur =>
            by_cases hb : betterRecipe r cur
            · simp only [if_pos hb]
              exact alistLookup_insert_ne _ _ _ _ (fun he => hk he.symm)
            · simp [hb]
        rw [hlook]
  have h2 := main l []
  simp only [alistLookup] at h2
  rw [buildOutputToRecipe, h2]
  cases l.filter (fun r => r.output.itemID == k) <;> rfl

/-- The selection fold returns a member of the candidate pool that is
strictly better than every other candidate (given pairwise-distinct ids). -/
theorem foldl_pickBetter_spec (rs : List Recipe) (cur : Recipe)
    (hdist : ∀ x ∈ cur :: rs, ∀ y ∈ cur :: rs, x ≠ y → x.id ≠ y.id) :
    (rs.foldl pickBetter cur = cur ∨ rs.foldl pickBetter cur ∈ rs) ∧
    ∀ x ∈ cur :: rs, x ≠ rs.foldl pickBetter cur →
      betterRecipe (rs.foldl pickBetter cur) x = true := by
  induction rs generalizing cur with
  | nil =>
    refine ⟨Or.inl rfl, ?_⟩
    intro x hx hxm
    rcases List.mem_singleton.mp hx with he
    exact absurd he hxm
  | cons r rest ih =>
    have hsub : ∀ z ∈ pickBetter cur r :: rest, z ∈ cur :: r :: rest := by
      intro z hz
      rcases List.mem_cons.mp hz with he | hm
      · subst he
        by_cases hb : betterRecipe r cur
        · simp [pickBetter, hb]
        · simp [pickBetter, hb]
      · simp [hm]
    have hdist2 : ∀ x ∈ pickBetter cur r :: rest, ∀ y ∈ pickBetter cur r :: rest,
        x ≠ y → x.id ≠ y.id := by
      intro x hx y hy
      exact hdist x (hsub x hx) y (hsub y hy)
    obtain ⟨ihmem, ihmin⟩ := ih (pickBetter cur r) hdist2
    rw [List.foldl_cons]
    set m := rest.foldl pickBetter (pickBetter cur r) with hm
    have hmem : m = cur ∨ m ∈ r :: rest := by
      rcases ihmem with he | hmr
      · have hmm : m ∈ pickBetter cur r :: rest := by
          rw [he]
          exact List.mem_cons_self _ _
        rcases List.mem_cons.mp (hsub _ hmm) with h1 | h1
        · exact Or.inl h1
        · exact Or.inr h1
      · exact Or.inr (List.mem_cons_of_mem _ hmr)
    refine ⟨hmem, ?_⟩
    intro x hx hxm
    by_cases hb : betterRecipe r cur
    · -- the head of the ih pool is r
      have hpick : pickBetter cur r = r := by simp [pickBetter, hb]
      rcases List.mem_cons.mp hx with he | hx2
      · -- x = cur
        subst he
        have hmr : betterRecipe m r = true ∨ m = r := by
          by_cases hmr : m = r
          · exact Or.inr hmr
          · exact Or.inl (ihmin r (by rw [hpick]; exact List.mem_cons_self _ _) (fun he2 => hmr he2.symm))
        rcases hmr with h1 | h1
        · exact betterRecipe_trans _ _ _ h1 hb
        · rw [h1]; exact hb
      · exact ihmin x (by rw [hpick]; exact hx2) hxm
    · have hpick : pickBetter cur r = cur := by simp [pickBetter, hb]
      rcases List.mem_cons.mp hx with he | hx2
      · subst he
        exact ihmin x (by rw [hpick]; exact List.mem_cons_self _ _) hxm
      · rcases List.mem_cons.mp hx2 with he | hx3
        · -- x = r
          subst he
          by_cases hrc : x = cur
          · exact ihmin x (by rw [hpick, hrc]; exact List.mem_cons_self _ _) hxm
          · have hids : x.id ≠ cur.id :=
              hdist x (List.mem_cons_of_mem _ (List.mem_cons_self _ _)) cur
                (List.mem_cons_self _ _) hrc
            have hcr : betterRecipe cur x = true := by
              rcases betterRecipe_total x cur hids with h1 | h1
              · rw [h1] at hb
                exact absurd rfl hb
              · exact h1
            by_cases hmc : m = cur
            · rw [hmc]; exact hcr
            · exact betterRecipe_trans _ _ _
                (ihmin cur (by rw [hpick]; exact List.mem_cons_self _ _) (fun he2 => hmc he2.symm))
                hcr
        · exact ihmin x (List.mem_cons_of_mem _ hx3) hxm

/-! ## C5: the canonical producer is the unique minimum -/

/-- C5: for every recipe list with pairwise-distinct recipe ids and every
item with at least one producer, the `outputToRecipe` entry for the item is
the unique producer minimal under the order "lower craft time, then higher
output quantity, then lexicographically smaller id" (`betterRecipe`), and
every permutation of the recipe list selects the same recipe. -/
theorem c5_selector_minimal_and_stable (l : List Recipe) (k : String)
    (hids : (l.map Recipe.id).Nodup)
    (hex : ∃ r ∈ l, r.output.itemID = k) :
    ∃ m, alistLookup (buildOutputToRecipe l) k = some m ∧
      m ∈ l ∧ m.output.itemID = k ∧
      (∀ x ∈ l, x.output.itemID = k → x ≠ m → betterRecipe m x = true) ∧
      (∀ m2, m2 ∈ l → m2.output.itemID = k →
        (∀ x ∈ l, x.output.itemID = k → x ≠ m2 → betterRecipe m2 x = true) → m2 = m) ∧
      (∀ l2, l.Perm l2 → alistLookup (buildOutputToRecipe l2) k = some m) := by
  classical
  have hinj : ∀ x ∈ l, ∀ y ∈ l, x.id = y.id → x = y := by
    intro x hx y hy hxy
    exact List.inj_on_of_nodup_map hids hx hy hxy
  -- the producer pool
  have hmem_filter : ∀ (ll : List Recipe) (x : Recipe),
      x ∈ ll.filter (fun r => r.output.itemID == k) ↔ x ∈ ll ∧ x.output.itemID = k := by
    intro ll x
    simp [List.mem_filter]
  obtain ⟨r0, hr0l, hr0k⟩ := hex
  cases hp : l.filter (fun r => r.output.itemID == k) with
  | nil =>
    exfalso
    have : r0 ∈ l.filter (fun r => r.output.itemID == k) := (hmem_filter l r0).mpr ⟨hr0l, hr0k⟩
    rw [hp] at this
    exact List.not_mem_nil r0 this
  | cons r rs =>
    have hpool : ∀ x, x ∈ r :: rs ↔ x ∈ l ∧ x.output.itemID = k := by
      intro x
      rw [← hp]
      exact hmem_filter l x
    have hdist : ∀ x ∈ r :: rs, ∀ y ∈ r :: rs, x ≠ y → x.id ≠ y.id := by
      intro x hx y hy hxy hid
      exact hxy (hinj x ((hpool x).mp hx).1 y ((hpool y).mp hy).1 hid)
    obtain ⟨hmem, hmin⟩ := foldl_pickBetter_spec rs r hdist
    set m := rs.foldl pickBetter r with hmdef
    have hm_pool : m ∈ r :: rs := by
      rcases hmem with he | hm2
      · rw [he]; exact List.mem_cons_self _ _
      · exact List.mem_cons_of_mem _ hm2
    have hml : m ∈ l := ((hpool m).mp hm_pool).1
    have hmk : m.output.itemID = k := ((hpool m).mp hm_pool).2
    have hlook : alistLookup (buildOutputToRecipe l) k = some m := by
      rw [buildOutputToRecipe_lookup, hp]
    have hminl : ∀ x ∈ l, x.output.itemID = k → x ≠ m → betterRecipe m x = true := by
      intro x hx hxk hxm
      exact hmin x ((hpool x).mpr ⟨hx, hxk⟩) hxm
    refine ⟨m, hlook, hml, hmk, hminl, ?_, ?_⟩
    · -- uniqueness of the minimum
      intro m2 hm2l hm2k hm2min
      by_contra hne
      have h1 : betterRecipe m m2 = true := hminl m2 hm2l hm2k hne
      have h2 : betterRecipe m2 m = true := hm2min m hml hmk (fun he => hne he.symm)
      have := betterRecipe_asymm _ _ h1
      rw [h2] at this
      exact Bool.noConfusion this
    · -- permutation stability
      intro l2 hperm
      have hids2 : (l2.map Recipe.id).Nodup := ((hperm.map Recipe.id).nodup_iff).mp hids
      have hpf : (l.filter (fun r => r.output.itemID == k)).Perm
          (l2.filter (fun r => r.output.itemID == k)) := hperm.filter _
      cases hp2 : l2.filter (fun r => r.output.itemID == k) with
      | nil =>
        exfalso
        rw [hp, hp2] at hpf
        exact List.not_mem_nil r (hpf.mem_iff.mp (List.mem_cons_self _ _))
      | cons r2 rs2 =>
        have hpool2 : ∀ x, x ∈ r2 :: rs2 ↔ x ∈ l2 ∧ x.output.itemID = k := by
          intro x
          rw [← hp2]
          exact hmem_filter l2 x
        have hinj2 : ∀ x ∈ l2, ∀ y ∈ l2, x.id = y.id → x = y := by
          intro x hx y hy hxy
          exact List.inj_on_of_nodup_map hids2 hx hy hxy
        have hdist2 : ∀ x ∈ r2 :: rs2, ∀ y ∈ r2 :: rs2, x ≠ y → x.id ≠ y.id := by
          intro x hx y hy hxy hid
          exact hxy (hinj2 x ((hpool2 x).mp hx).1 y ((hpool2 y).mp hy).1 hid)
        obtain ⟨hmem2, hmin2⟩ := foldl_pickBetter_spec rs2 r2 hdist2
        set m2 := rs2.foldl pickBetter r2 with hm2def
        have hm2_pool : m2 ∈ r2 :: rs2 := by
          rcases hmem2 with he | hm3
          · rw [he]; exact List.mem_cons_self _ _
          · exact List.mem_cons_of_mem _ hm3
        have hm2l2 : m2 ∈ l2 := ((hpool2 m2).mp hm2_pool).1
        have hm2k : m2.output.itemID = k := ((hpool2 m2).mp hm2_pool).2
        have hm2l : m2 ∈ l := hperm.mem_iff.mpr hm2l2
        have heq : m2 = m := by
          by_contra hne
          have h1 : betterRecipe m m2 = true := hminl m2 hm2l hm2k hne
          -- m is in the pool of l2 as well
          have hm_pool2 : m ∈ r2 :: rs2 := (hpool2 m).mpr ⟨hperm.mem_iff.mp hml, hmk⟩
          have h2 : betterRecipe m2 m = true := hmin2 m hm_pool2 (fun he => hne he.symm)
          have := betterRecipe_asymm _ _ h1
          rw [h2] at this
          exact Bool.noConfusion this
        rw [buildOutputToRecipe_lookup, hp2]
        simp only []
        rw [← hm2def, heq]

/-- A catalog with two producers of the same item, for the C5 witness. -/
def gearCatalog : List Recipe :=
  [ { id := "gear_slow", name := "Slow Gear", craftTimeSec := 9,
      components := [⟨"ore_iron", 2⟩], output := ⟨"gear", 1⟩ },
    { id := "gear_fast", name := "Fast Gear", craftTimeSec := 4,
      components := [⟨"ore_iron", 3⟩], output := ⟨"gear", 1⟩ } ]

/-- Witness for C5: two producers of "gear", the faster one wins, under both
orders of the input list. -/
theorem c5_witness :
    ((gearCatalog.map Recipe.id).Nodup ∧ ∃ r ∈ gearCatalog, r.output.itemID = "gear") ∧
    ∃ m, alistLookup (buildOutputToRecipe gearCatalog) "gear" = some m ∧
      m ∈ gearCatalog ∧ m.output.itemID = "gear" ∧
      (∀ x ∈ gearCatalog, x.output.itemID = "gear" → x ≠ m → betterRecipe m x = true) ∧
      (∀ m2, m2 ∈ gearCatalog → m2.output.itemID = "gear" →
        (∀ x ∈ gearCatalog, x.output.itemID = "gear" → x ≠ m2 →
          betterRecipe m2 x = true) → m2 = m) ∧
      (∀ l2, gearCatalog.Perm l2 → alistLookup (buildOutputToRecipe l2) "gear" = some m) :=
  ⟨⟨by decide, by decide⟩,
   c5_selector_minimal_and_stable gearCatalog "gear" (by decide) (by decide)⟩

/-! ## Properties of the canonical-producer map -/

theorem foldl_pickBetter_mem (rs : List Recipe) (cur : Recipe) :
    rs.foldl pickBetter cur = cur ∨ rs.foldl pickBetter cur ∈ rs := by
  induction rs generalizing cur with
  | nil => exact Or.inl rfl
  | cons r rest ih =>
    rw [List.foldl_cons]
    rcases ih (pickBetter cur r) with he | hm
    · rw [he]
      by_cases hb : betterRecipe r cur
      · simp only [pickBetter, if_pos hb]
        exact Or.inr (List.mem_cons_self _ _)
      · simp [pickBetter, hb]
    · exact Or.inr (List.mem_cons_of_mem _ hm)

/-- Every entry of the canonical-producer map is a catalog recipe producing
its key. -/
theorem buildOutputToRecipe_sound (l : List Recipe) (k : String) (r : Recipe)
    (h : alistLookup (buildOutputToRecipe l) k = some r) :
    r ∈ l ∧ r.output.itemID = k := by
  rw [buildOutputToRecipe_lookup] at h
  cases hp : l.filter (fun s => s.output.itemID == k) with
  | nil => rw [hp] at h; exact Option.noConfusion h
  | cons p ps =>
    rw [hp] at h
    simp only [] at h
    have hr : r = ps.foldl pickBetter p := (Option.some.inj h).symm
    have hmem : r ∈ p :: ps := by
      rcases foldl_pickBetter_mem ps p with he | hm
      · rw [hr, he]; exact List.mem_cons_self _ _
      · rw [hr]; exact List.mem_cons_of_mem _ hm
    have : r ∈ l.filter (fun s => s.output.itemID == k) := by rw [hp]; exact hmem
    have h2 := List.mem_filter.mp this
    exact ⟨h2.1, by simpa using h2.2⟩

/-! ## DFS invariants -/

theorem dfsFold_cons (visit : String → DfsState → Except BOMError DfsState)
    (c : String) (cs : List String) (st : DfsState) :
    dfsFold visit (c :: cs) st =
      match visit c st with
      | .error e => .error e
      | .ok st1 => dfsFold visit cs st1 := rfl

/-- The monotonicity/conformance relation preserved by `dfs`: visited and the
craftable key set only grow, every craftable entry either predates the call
or is the canonical producer of its key, and the "every visited craftable id
has an entry" invariant is preserved. -/
def DfsRel (out2r : String → Option Recipe) (s t : DfsState) : Prop :=
  (∀ x ∈ s.visited, x ∈ t.visited) ∧
  (∀ x ∈ alistKeys s.craftable, x ∈ alistKeys t.craftable) ∧
  (∀ c r, alistLookup t.craftable c = some r →
    alistLookup s.craftable c = some r ∨ out2r c = some r) ∧
  ((∀ c, c ∈ s.visited → (out2r c).isSome = true → c ∈ alistKeys s.craftable) →
    ∀ c, c ∈ t.visited → (out2r c).isSome = true → c ∈ alistKeys t.craftable) ∧
  ((alistKeys s.craftable).Nodup → (alistKeys t.craftable).Nodup)

theorem dfsRel_refl (out2r : String → Option Recipe) (s : DfsState) : DfsRel out2r s s :=
  ⟨fun _ hx => hx, fun _ hx => hx, fun _ _ h => Or.inl h, fun h => h, fun h => h⟩

theorem dfsRel_trans (out2r : String → Option Recipe) (a b c : DfsState)
    (hab : DfsRel out2r a b) (hbc : DfsRel out2r b c) : DfsRel out2r a c := by
  obtain ⟨v1, k1, l1, i1, n1⟩ := hab
  obtain ⟨v2, k2, l2, i2, n2⟩ := hbc
  refine ⟨fun x hx => v2 x (v1 x hx), fun x hx => k2 x (k1 x hx), ?_,
    fun h => i2 (i1 h), fun h => n2 (n1 h)⟩
  intro cc r h
  rcases l2 cc r h with h2 | h2
  · exact l1 cc r h2
  · exact Or.inr h2

theorem dfsFold_rel {visit : String → DfsState → Except BOMError DfsState}
    (R : DfsState → DfsState → Prop)
    (hrefl : ∀ s, R s s)
    (htrans : ∀ a b c, R a b → R b c → R a c)
    (hvisit : ∀ c s s', visit c s = .ok s' → R s s') :
    ∀ (cs : List String) (st st' : DfsState), dfsFold visit cs st = .ok st' → R st st' := by
  intro cs
  induction cs with
  | nil =>
    intro st st' h
    simp only [dfsFold] at h
    cases h
    exact hrefl st
  | cons c rest ih =>
    intro st st' h
    rw [dfsFold_cons] at h
    cases hv : visit c st with
    | error e => rw [hv] at h; exact Except.noConfusion h
    | ok st1 =>
      rw [hv] at h
      exact htrans _ _ _ (hvisit c st st1 hv) (ih st1 st' h)

/-! Equation lemmas for `dfs` (one per branch of the source function). -/

theorem dfs_eq_visited (out2r : String → Option Recipe) (fuel : Nat) (c : String)
    (st : DfsState) (h1 : c ∈ st.visited) : dfs out2r (fuel + 1) c st = .ok st := by
  rw [dfs, if_pos h1]

theorem dfs_eq_path (out2r : String → Option Recipe) (fuel : Nat) (c : String)
    (st : DfsState) (h1 : c ∉ st.visited) (h2 : c ∈ st.pathStack) :
    dfs out2r (fuel + 1) c st = .error (.dfsCycle c) := by
  rw [dfs, if_neg h1, if_pos h2]

theorem dfs_eq_raw (out2r : String → Option Recipe) (fuel : Nat) (c : String)
    (st : DfsState) (h1 : c ∉ st.visited) (h2 : c ∉ st.pathStack)
    (ho : out2r c = none) :
    dfs out2r (fuel + 1) c st =
      .ok { st with visited := c :: st.visited,
                    pathStack := (c :: st.pathStack).erase c } := by
  rw [dfs, if_neg h1, if_neg h2, ho]

theorem dfs_eq_recipe (out2r : String → Option Recipe) (fuel : Nat) (c : String)
    (st : DfsState) (recipe : Recipe) (h1 : c ∉ st.visited) (h2 : c ∉ st.pathStack)
    (ho : out2r c = some recipe) :
    dfs out2r (fuel + 1) c st =
      match dfsFold (dfs out2r fuel) (recipe.components.map RecipeComponent.componentID)
          { visited := c :: st.visited, pathStack := c :: st.pathStack,
            craftable := alistInsert st.craftable c recipe } with
      | .error e => .error e
      | .ok st3 => .ok { st3 with pathStack := st3.pathStack.erase c } := by
  rw [dfs, if_neg h1, if_neg h2, ho]

theorem dfs_rel (out2r : String → Option Recipe) :
    ∀ (fuel : Nat) (c : String) (st st' : DfsState),
      dfs out2r fuel c st = .ok st' → DfsRel out2r st st' := by
  intro fuel
  induction fuel with
  | zero =>
    intro c st st' h
    exact Except.noConfusion h
  | succ fuel ih =>
    intro c st st' h
    by_cases h1 : c ∈ st.visited
    · rw [dfs_eq_visited out2r fuel c st h1] at h
      cases h
      exact dfsRel_refl out2r st
    · by_cases h2 : c ∈ st.pathStack
      · rw [dfs_eq_path out2r fuel c st h1 h2] at h
        exact Except.noConfusion h
      · cases ho : out2r c with
        | none =>
          rw [dfs_eq_raw out2r fuel c st h1 h2 ho] at h
          cases h
          refine ⟨fun x hx => List.mem_cons_of_mem _ hx, fun x hx => hx,
            fun cc r hl => Or.inl hl, ?_, fun hn => hn⟩
          intro hvk cc hcc hsome
          rcases List.mem_cons.mp hcc with he | hm
          · subst he
            rw [ho] at hsome
            exact Bool.noConfusion hsome
          · exact hvk cc hm hsome
        | some recipe =>
          rw [dfs_eq_recipe out2r fuel c st recipe h1 h2 ho] at h
          cases hf : dfsFold (dfs out2r fuel)
              (recipe.components.map RecipeComponent.componentID)
              { visited := c :: st.visited, pathStack := c :: st.pathStack,
                craftable := alistInsert st.craftable c recipe } with
          | error e => rw [hf] at h; exact Except.noConfusion h
          | ok st3 =>
            rw [hf] at h
            cases h
            have hstep : DfsRel out2r st
                { visited := c :: st.visited, pathStack := c :: st.pathStack,
                  craftable := alistInsert st.craftable c recipe } := by
              refine ⟨fun x hx => List.mem_cons_of_mem _ hx,
                fun x hx => mem_alistKeys_insert _ _ _ _ hx, ?_, ?_,
                fun hn => alistKeys_insert_nodup _ _ _ hn⟩
              · intro cc r hl
                by_cases hcc : cc = c
                · subst hcc
                  rw [alistLookup_insert_self] at hl
                  cases hl
                  exact Or.inr ho
                · rw [alistLookup_insert_ne _ _ _ _ hcc] at hl
                  exact Or.inl hl
              · intro hvk cc hcc hsome
                rcases List.mem_cons.mp hcc with he | hm
                · subst he
                  exact self_mem_alistKeys_insert _ _ _
                · exact mem_alistKeys_insert _ _ _ _ (hvk cc hm hsome)
            have hrel3 := dfsFold_rel (DfsRel out2r) (dfsRel_refl out2r)
              (dfsRel_trans out2r) (fun cc s s' hv => ih cc s s' hv) _ _ _ hf
            have hrel : DfsRel out2r st st3 := dfsRel_trans out2r _ _ _ hstep hrel3
            obtain ⟨v3, k3, l3, i3, n3⟩ := hrel
            exact ⟨v3, k3, l3, i3, n3⟩

/-- A successful `dfs` call leaves its argument visited. -/
theorem dfs_ok_visited (out2r : String → Option Recipe) :
    ∀ (fuel : Nat) (c : String) (st st' : DfsState),
      dfs out2r fuel c st = .ok st' → c ∈ st'.visited := by
  intro fuel c st st' h
  cases fuel with
  | zero => exact Except.noConfusion h
  | succ fuel =>
    by_cases h1 : c ∈ st.visited
    · rw [dfs_eq_visited out2r fuel c st h1] at h
      cases h
      exact h1
    · by_cases h2 : c ∈ st.pathStack
      · rw [dfs_eq_path out2r fuel c st h1 h2] at h
        exact Except.noConfusion h
      · cases ho : out2r c with
        | none =>
          rw [dfs_eq_raw out2r fuel c st h1 h2 ho] at h
          cases h
          exact List.mem_cons_self _ _
        | some recipe =>
          rw [dfs_eq_recipe out2r fuel c st recipe h1 h2 ho] at h
          cases hf : dfsFold (dfs out2r fuel)
              (recipe.components.map RecipeComponent.componentID)
              { visited := c :: st.visited, pathStack := c :: st.pathStack,
                craftable := alistInsert st.craftable c recipe } with
          | error e => rw [hf] at h; exact Except.noConfusion h
          | ok st3 =>
            rw [hf] at h
            cases h
            have hrel := dfsFold_rel (DfsRel out2r) (dfsRel_refl out2r)
              (dfsRel_trans out2r) (fun cc s s' hv => dfs_rel out2r fuel cc s s' hv) _ _ _ hf
            exact hrel.1 c (List.mem_cons_self _ _)

/-- After a successful `dfsFold`, every id in the processed list is visited. -/
theorem dfsFold_ok_visited (out2r : String → Option Recipe) (fuel : Nat) :
    ∀ (cs : List String) (st st' : DfsState),
      dfsFold (dfs out2r fuel) cs st = .ok st' → ∀ c ∈ cs, c ∈ st'.visited := by
  intro cs
  induction cs with
  | nil =>
    intro st st' _ c hc
    exact absurd hc (List.not_mem_nil c)
  | cons d rest ih =>
    intro st st' h c hc
    rw [dfsFold_cons] at h
    cases hv : dfs out2r fuel d st with
    | error e => rw [hv] at h; exact Except.noConfusion h
    | ok st1 =>
      rw [hv] at h
      rcases List.mem_cons.mp hc with he | hm
      · subst he
        have hvis := dfs_ok_visited out2r fuel c st st1 hv
        have hrel := dfsFold_rel (DfsRel out2r) (dfsRel_refl out2r)
          (dfsRel_trans out2r) (fun cc s s' hv2 => dfs_rel out2r fuel cc s s' hv2) _ _ _ h
        exact hrel.1 c hvis
      · exact ih st1 st' h c hm

/-! ## Ceiling division facts -/

theorem ceilRuns_mul_ge (d q : Int) (hq : 1 ≤ q) : d ≤ ceilRuns d q * q := by
  have hmod := Int.ediv_add_emod (d + q - 1) q
  have hlt : (d + q - 1) % q < q := Int.emod_lt_of_pos _ (by omega)
  have hge : 0 ≤ (d + q - 1) % q := Int.emod_nonneg _ (by omega)
  simp only [ceilRuns]
  rw [mul_comm]
  linarith

theorem ceilRuns_le (d q m : Int) (hq : 1 ≤ q) (hm : d ≤ m * q) : ceilRuns d q ≤ m := by
  have hlt : (d + q - 1) / q < m + 1 := by
    rw [Int.ediv_lt_iff_lt_mul (by omega : (0:Int) < q)]
    nlinarith
  simp only [ceilRuns]
  omega

theorem ceilRuns_pos (d q : Int) (hd : 1 ≤ d) (hq : 1 ≤ q) : 1 ≤ ceilRuns d q := by
  by_contra h
  push_neg at h
  have h0 : ceilRuns d q ≤ 0 := by omega
  have h1 := ceilRuns_mul_ge d q hq
  nlinarith

theorem ceilRuns_nonneg (d q : Int) (hd : 0 ≤ d) (hq : 1 ≤ q) : 0 ≤ ceilRuns d q := by
  rcases eq_or_lt_of_le hd with he | hlt
  · have hz : d + q - 1 = q - 1 := by omega
    simp only [ceilRuns, hz]
    rw [Int.ediv_eq_zero_of_lt (by omega) (by omega)]
  · exact le_trans (by omega) (ceilRuns_pos d q (by omega) hq)

/-! ## Demand-phase equation lemmas and invariants -/

theorem demandStep_none (craftable : List (String × Recipe))
    (dem runs : List (String × Int)) (item : String)
    (h : alistLookup craftable item = none) :
    demandStep craftable (dem, runs) item = (dem, runs) := by
  rw [demandStep, h]

theorem demandStep_skip (craftable : List (String × Recipe))
    (dem runs : List (String × Int)) (item : String) (recipe : Recipe)
    (h : alistLookup craftable item = some recipe)
    (hd : (alistLookup dem item).getD 0 = 0) :
    demandStep craftable (dem, runs) item = (dem, runs) := by
  rw [demandStep, h]
  simp [hd]

theorem demandStep_run (craftable : List (String × Recipe))
    (dem runs : List (String × Int)) (item : String) (recipe : Recipe)
    (h : alistLookup craftable item = some recipe)
    (hd : ¬ (alistLookup dem item).getD 0 = 0) :
    demandStep craftable (dem, runs) item =
      (recipe.components.foldl
        (fun dm comp =>
          alistInsert dm comp.componentID
            (((alistLookup dm comp.componentID).getD 0) +
              ceilRuns ((alistLookup dem item).getD 0) recipe.output.quantity * comp.quantity))
        dem,
       alistInsert runs item
         (ceilRuns ((alistLookup dem item).getD 0) recipe.output.quantity)) := by
  rw [demandStep, h]
  simp [hd]

/-- The component fold of a demand step keeps all demand values nonnegative. -/
theorem demand_fold_nonneg (n : Int) (hn : 0 ≤ n) :
    ∀ (comps : List RecipeComponent) (dm : List (String × Int)),
      (∀ comp ∈ comps, 0 ≤ comp.quantity) →
      (∀ k v, alistLookup dm k = some v → 0 ≤ v) →
      ∀ k v, alistLookup
          (comps.foldl (fun dm2 comp =>
            alistInsert dm2 comp.componentID
              (((alistLookup dm2 comp.componentID).getD 0) + n * comp.quantity)) dm) k =
          some v → 0 ≤ v := by
  intro comps
  induction comps with
  | nil =>
    intro dm _ hdm k v h
    exact hdm k v h
  | cons comp rest ih =>
    intro dm hcomps hdm k v h
    rw [List.foldl_cons] at h
    refine ih _ (fun c hc => hcomps c (List.mem_cons_of_mem _ hc)) ?_ k v h
    intro k2 v2 h2
    by_cases hk : k2 = comp.componentID
    · rw [hk, alistLookup_insert_self] at h2
      cases h2
      have hq := hcomps comp (List.mem_cons_self _ _)
      have hold : 0 ≤ (alistLookup dm comp.componentID).getD 0 := by
        cases hl : alistLookup dm comp.componentID with
        | none => simp
        | some w => simpa using hdm comp.componentID w hl
      have hnn : 0 ≤ n * comp.quantity := mul_nonneg hn hq
      omega
    · rw [alistLookup_insert_ne _ _ _ _ hk] at h2
      exact hdm k2 v2 h2

/-- Processing any item list keeps demands nonnegative and craft runs
at least 1, provided every craftable recipe has positive output quantity
and nonnegative component quantities. -/
theorem demandPhase_invariant (craftable : List (String × Recipe))
    (Hq : ∀ c r, alistLookup craftable c = some r → 1 ≤ r.output.quantity)
    (Hcomp : ∀ c r, alistLookup craftable c = some r →
      ∀ comp ∈ r.components, 0 ≤ comp.quantity) :
    ∀ (order : List String) (dem runs : List (String × Int)),
      (∀ k v, alistLookup dem k = some v → 0 ≤ v) →
      (∀ k n, alistLookup runs k = some n → 1 ≤ n) →
      (∀ k v, alistLookup (order.foldl (demandStep craftable) (dem, runs)).1 k = some v →
        0 ≤ v) ∧
      (∀ k n, alistLookup (order.foldl (demandStep craftable) (dem, runs)).2 k = some n →
        1 ≤ n) := by
  intro order
  induction order with
  | nil =>
    intro dem runs hdem hruns
    exact ⟨hdem, hruns⟩
  | cons item rest ih =>
    intro dem runs hdem hruns
    rw [List.foldl_cons]
    cases hcr : alistLookup craftable item with
    | none =>
      rw [demandStep_none craftable dem runs item hcr]
      exact ih dem runs hdem hruns
    | some recipe =>
      by_cases hd : (alistLookup dem item).getD 0 = 0
      · rw [demandStep_skip craftable dem runs item recipe hcr hd]
        exact ih dem runs hdem hruns
      · rw [demandStep_run craftable dem runs item recipe hcr hd]
        have hdpos : 1 ≤ (alistLookup dem item).getD 0 := by
          cases hl : alistLookup dem item with
          | none => rw [hl] at hd; simp at hd
          | some w =>
            have h0 := hdem item w hl
            rw [hl] at hd
            simp only [Option.getD_some] at hd ⊢
            omega
        have hn : 1 ≤ ceilRuns ((alistLookup dem item).getD 0) recipe.output.quantity :=
          ceilRuns_pos _ _ hdpos (Hq item recipe hcr)
        refine ih _ _ ?_ ?_
        · exact demand_fold_nonneg _ (by omega) recipe.components dem
            (Hcomp item recipe hcr) hdem
        · intro k n h
          by_cases hk : k = item
          · rw [hk, alistLookup_insert_self] at h
            cases h
            exact hn
          · rw [alistLookup_insert_ne _ _ _ _ hk] at h
            exact hruns k n h

/-! ## Decomposing a successful run -/

/-- Eliminating a successful `bomCore` run into its stages. -/
theorem bomCore_ok_elim (catalog : List Recipe) (req : BillOfMaterialsRequest)
    (sC sD : List String → List String) (st : BOMState)
    (h : bomCore catalog req sC sD = .ok st) :
    ∃ (st1 : DfsState) (sorted : List String),
      getRecipe catalog req.recipeID = some st.targetRecipe ∧
      dfsComps (alistLookup (buildOutputToRecipe catalog)) (dfsFuel catalog)
        (st.targetRecipe.components.map RecipeComponent.componentID)
        { visited := [], pathStack := [],
          craftable := [(st.targetRecipe.output.itemID, st.targetRecipe)] } = .ok st1 ∧
      topologicalSort st1.craftable (sC (alistKeys st1.craftable))
        (sD (alistKeys st1.craftable)) = .ok sorted ∧
      st.craftable = st1.craftable ∧
      st.sortedBottomUp = sorted ∧
      st.qty = (if req.quantity ≤ 0 then 1 else req.quantity) ∧
      (st.demand, st.runs) =
        demandPhase st1.craftable sorted.reverse st.targetRecipe.output.itemID st.qty := by
  simp only [bomCore] at h
  split at h
  · exact Except.noConfusion h
  · rename_i target hget
    split at h
    · exact Except.noConfusion h
    · rename_i st1 hdfs
      split at h
      · exact Except.noConfusion h
      · rename_i sorted htopo
        cases h
        exact ⟨st1, sorted, hget, hdfs, htopo, rfl, rfl, rfl, rfl⟩

/-- Every craftable entry of a successful run is either the target entry or
the canonical producer of its key. -/
theorem bomCore_craftable_conform (catalog : List Recipe) (req : BillOfMaterialsRequest)
    (sC sD : List String → List String) (st : BOMState)
    (h : bomCore catalog req sC sD = .ok st) :
    ∀ c r, alistLookup st.craftable c = some r →
      (c = st.targetRecipe.output.itemID ∧ r = st.targetRecipe) ∨
      alistLookup (buildOutputToRecipe catalog) c = some r := by
  obtain ⟨st1, sorted, hget, hdfs, htopo, hcraft, _, _, _⟩ :=
    bomCore_ok_elim catalog req sC sD st h
  intro c r hl
  rw [hcraft] at hl
  set out2r := alistLookup (buildOutputToRecipe catalog) with hout
  have hrel := dfsFold_rel (DfsRel out2r) (dfsRel_refl out2r) (dfsRel_trans out2r)
    (fun cc s s' hv => dfs_rel out2r (dfsFuel catalog) cc s s' hv) _ _ _ hdfs
  rcases hrel.2.2.1 c r hl with h0 | h0
  · left
    simp only [alistLookup] at h0
    by_cases hc : c = st.targetRecipe.output.itemID
    · rw [if_pos hc] at h0
      exact ⟨hc, (Option.some.inj h0).symm⟩
    · rw [if_neg hc] at h0
      exact Option.noConfusion h0
  · exact Or.inr h0

/-- Every craftable value of a successful run is a catalog recipe producing
its key. -/
theorem bomCore_craftable_vals (catalog : List Recipe) (req : BillOfMaterialsRequest)
    (sC sD : List String → List String) (st : BOMState)
    (h : bomCore catalog req sC sD = .ok st) :
    ∀ c r, alistLookup st.craftable c = some r → r ∈ catalog ∧ r.output.itemID = c := by
  intro c r hl
  obtain ⟨st1, sorted, hget, _, _, _, _, _, _⟩ := bomCore_ok_elim catalog req sC sD st h
  rcases bomCore_craftable_conform catalog req sC sD st h c r hl with ⟨hc, hr⟩ | h0
  · subst hr
    refine ⟨List.mem_of_find?_eq_some hget, hc.symm⟩
  · exact buildOutputToRecipe_sound catalog c r h0

/-- A successful run has a normalized positive quantity. -/
theorem bomCore_qty_pos (catalog : List Recipe) (req : BillOfMaterialsRequest)
    (sC sD : List String → List String) (st : BOMState)
    (h : bomCore catalog req sC sD = .ok st) : 1 ≤ st.qty := by
  have hq := bomCore_ok_qty catalog req sC sD st h
  by_cases hle : req.quantity ≤ 0
  · rw [hq, if_pos hle]
  · rw [hq, if_neg hle]
    omega

/-! ## C10: positive quantities guard the division -/

/-- C10: when every catalog recipe has output quantity ≥ 1 and component
quantities ≥ 1, the craft-run computation of a (successfully completed)
run never divides by zero — every divisor used is the output quantity of a
craftable entry, and all of those are ≥ 1 — and every recorded craft-runs
value is ≥ 1. -/
theorem c10_craft_runs_guarded (catalog : List Recipe) (req : BillOfMaterialsRequest)
    (sC sD : List String → List String) (st : BOMState)
    (hq : ∀ r ∈ catalog, 1 ≤ r.output.quantity)
    (hcomp : ∀ r ∈ catalog, ∀ comp ∈ r.components, 1 ≤ comp.quantity)
    (h : bomCore catalog req sC sD = .ok st) :
    (∀ c r, alistLookup st.craftable c = some r → 1 ≤ r.output.quantity) ∧
    (∀ c n, alistLookup st.runs c = some n → 1 ≤ n) := by
  have hvals := bomCore_craftable_vals catalog req sC sD st h
  have Hq : ∀ c r, alistLookup st.craftable c = some r → 1 ≤ r.output.quantity :=
    fun c r hl => hq r (hvals c r hl).1
  have Hcomp : ∀ c r, alistLookup st.craftable c = some r →
      ∀ comp ∈ r.components, 0 ≤ comp.quantity :=
    fun c r hl comp hcm => le_trans (by omega) (hcomp r (hvals c r hl).1 comp hcm)
  refine ⟨Hq, ?_⟩
  obtain ⟨st1, sorted, hget, hdfs, htopo, hcraft, hsorted, hqty, htables⟩ :=
    bomCore_ok_elim catalog req sC sD st h
  have hqpos := bomCore_qty_pos catalog req sC sD st h
  have Hq1 : ∀ c r, alistLookup st1.craftable c = some r → 1 ≤ r.output.quantity := by
    rw [← hcraft]; exact Hq
  have Hcomp1 : ∀ c r, alistLookup st1.craftable c = some r →
      ∀ comp ∈ r.components, 0 ≤ comp.quantity := by
    rw [← hcraft]; exact Hcomp
  have hinv := demandPhase_invariant st1.craftable Hq1 Hcomp1 sorted.reverse
    [(st.targetRecipe.output.itemID, st.qty)] []
    (by
      intro k v hl
      simp only [alistLookup] at hl
      by_cases hk : k = st.targetRecipe.output.itemID
      · rw [if_pos hk] at hl
        cases hl
        omega
      · rw [if_neg hk] at hl
        exact Option.noConfusion hl)
    (by
      intro k n hl
      simp only [alistLookup] at hl
      exact Option.noConfusion hl)
  have hruns : st.runs =
      (sorted.reverse.foldl (demandStep st1.craftable)
        ([(st.targetRecipe.output.itemID, st.qty)], [])).2 := by
    have := congrArg Prod.snd htables
    simpa [demandPhase] using this
  rw [hruns]
  exact hinv.2

/-- Witness for C10 on the §8 scanner catalog (the hypotheses hold there and
the run succeeds, so the theorem is not vacuous). -/
theorem c10_witness :
    (∀ r ∈ scannerCatalog, 1 ≤ r.output.quantity) ∧
    (∀ r ∈ scannerCatalog, ∀ comp ∈ r.components, 1 ≤ comp.quantity) ∧
    (bomCore scannerCatalog ⟨"craft_scanner_1", 1⟩ id id).isOk = true ∧
    ∀ st, bomCore scannerCatalog ⟨"craft_scanner_1", 1⟩ id id = .ok st →
      (∀ c r, alistLookup st.craftable c = some r → 1 ≤ r.output.quantity) ∧
      (∀ c n, alistLookup st.runs c = some n → 1 ≤ n) :=
  ⟨by decide, by decide, by decide,
   fun st h => c10_craft_runs_guarded scannerCatalog ⟨"craft_scanner_1", 1⟩ id id st
     (by decide) (by decide) h⟩

/-! ## Characterizing the in-degree and adjacency maps -/

/-- Degree view of an in-degree map (Go reads absent keys as 0). -/
def degOf (m : List (String × Int)) (v : String) : Int := (alistLookup m v).getD 0

/-- Dependents view of the adjacency map. -/
def depsOf (adj : List (String × List String)) (w : String) : List String :=
  (alistLookup adj w).getD []

/-- Multiplicity of the edge `w → v` in the adjacency map (`v` appears in
`adjacency[w]` once per occurrence of `w` among the craftable components of
`v`'s recipe). -/
def cntIn (adj : List (String × List String)) (v w : String) : Nat :=
  (depsOf adj w).count v

/-- Number of craftable component occurrences of `v`'s recipe: the in-degree
the build loop assigns to `v`. -/
def craftDeg (craftable : List (String × Recipe)) (v : String) : Nat :=
  match alistLookup craftable v with
  | none => 0
  | some r => ((r.components.map RecipeComponent.componentID).filter
      (fun c => (alistLookup craftable c).isSome)).length

/-- Multiplicity of `w` among the craftable components of `v`'s recipe. -/
def compCnt (craftable : List (String × Recipe)) (v w : String) : Nat :=
  match alistLookup craftable v with
  | none => 0
  | some r =>
    if (alistLookup craftable w).isSome then (r.components.map RecipeComponent.componentID).count w
    else 0

theorem degOf_incr (m : List (String × Int)) (k v : String) :
    degOf (alistIncr m k) v = degOf m v + (if v = k then 1 else 0) := by
  by_cases hv : v = k
  · subst hv
    simp [degOf, alistIncr, alistLookup_insert_self]
  · simp [degOf, alistIncr, alistLookup_insert_ne _ _ _ _ hv, hv]

theorem cntIn_appendDep (a : List (String × List String)) (k item v w : String) :
    cntIn (alistAppendDep a k item) v w =
      cntIn a v w + (if w = k ∧ v = item then 1 else 0) := by
  by_cases hw : w = k
  · subst hw
    simp only [cntIn, depsOf, alistAppendDep, alistLookup_insert_self, Option.getD_some]
    rw [List.count_append]
    by_cases hv : v = item
    · subst hv
      simp
    · simp [List.count_singleton, hv]
  · simp only [cntIn, depsOf, alistAppendDep, alistLookup_insert_ne _ _ _ _ hw]
    simp [hw]

theorem depsOf_appendDep_mem (a : List (String × List String)) (k item w v : String)
    (h : v ∈ depsOf (alistAppendDep a k item) w) : v ∈ depsOf a w ∨ v = item := by
  by_cases hw : w = k
  · subst hw
    simp only [depsOf, alistAppendDep, alistLookup_insert_self, Option.getD_some] at h
    rcases List.mem_append.mp h with h1 | h1
    · exact Or.inl h1
    · exact Or.inr (List.mem_singleton.mp h1)
  · rw [depsOf, alistAppendDep, alistLookup_insert_ne _ _ _ _ hw] at h
    exact Or.inl h

/-- Effect of the inner component loop of `buildStep` on degrees, edge
multiplicities and adjacency membership. -/
theorem buildStep_fold_spec (craftable : List (String × Recipe)) (item : String) :
    ∀ (comps : List RecipeComponent) (i : List (String × Int))
      (a : List (String × List String)),
      (∀ v, degOf (comps.foldl
          (fun st2 comp =>
            if (alistLookup craftable comp.componentID).isSome then
              (alistIncr st2.1 item, alistAppendDep st2.2 comp.componentID item)
            else st2) (i, a)).1 v =
        degOf i v + (if v = item then
          ((comps.filter (fun c => (alistLookup craftable c.componentID).isSome)).length : Int)
          else 0)) ∧
      (∀ v w, cntIn (comps.foldl
          (fun st2 comp =>
            if (alistLookup craftable comp.componentID).isSome then
              (alistIncr st2.1 item, alistAppendDep st2.2 comp.componentID item)
            else st2) (i, a)).2 v w =
        cntIn a v w + (if v = item ∧ (alistLookup craftable w).isSome then
          ((comps.map RecipeComponent.componentID).count w) else 0)) ∧
      (∀ w v, v ∈ depsOf (comps.foldl
          (fun st2 comp =>
            if (alistLookup craftable comp.componentID).isSome then
              (alistIncr st2.1 item, alistAppendDep st2.2 comp.componentID item)
            else st2) (i, a)).2 w → v ∈ depsOf a w ∨ v = item) := by
  intro comps
  induction comps with
  | nil =>
    intro i a
    refine ⟨fun v => by simp, fun v w => by simp, fun w v h => Or.inl h⟩
  | cons comp rest ih =>
    intro i a
    rw [List.foldl_cons]
    by_cases hc : (alistLookup craftable comp.componentID).isSome
    · rw [if_pos hc]
      obtain ⟨ih1, ih2, ih3⟩ := ih (alistIncr i item) (alistAppendDep a comp.componentID item)
      refine ⟨?_, ?_, ?_⟩
      · intro v
        rw [ih1 v, degOf_incr]
        rw [List.filter_cons, if_pos hc]
        by_cases hv : v = item <;> simp [hv] <;> omega
      · intro v w
        rw [ih2 v w, cntIn_appendDep]
        rw [List.map_cons, List.count_cons]
        by_cases hv : v = item
        · subst hv
          by_cases hw : (alistLookup craftable w).isSome
          · simp only [hw, and_true, if_pos rfl]
            by_cases hwc : w = comp.componentID
            · subst hwc
              simp
              omega
            · have hne : ¬ (comp.componentID == w) = true := by
                simp
                exact fun he => hwc he.symm
              simp [hwc, hne]
          · -- w not craftable: but the edge was appended at key comp.componentID which is craftable
            by_cases hwc : w = comp.componentID
            · rw [hwc] at hw
              exact absurd hc hw
            · simp [hw, hwc]
        · simp [hv]
      · intro w v h
        rcases ih3 w v h with h1 | h1
        · rcases depsOf_appendDep_mem a comp.componentID item w v h1 with h2 | h2
          · exact Or.inl h2
          · exact Or.inr h2
        · exact Or.inr h1
    · rw [if_neg hc]
      obtain ⟨ih1, ih2, ih3⟩ := ih i a
      refine ⟨?_, ?_, ?_⟩
      · intro v
        rw [ih1 v, List.filter_cons, if_neg hc]
      · intro v w
        rw [ih2 v w, List.map_cons, List.count_cons]
        by_cases hv : v = item
        · by_cases hw : (alistLookup craftable w).isSome
          · by_cases hwc : w = comp.componentID
            · rw [hwc] at hw
              exact absurd hw hc
            · have : ¬ (comp.componentID == w) = true := by
                simp
                exact fun he => hwc he.symm
              simp [hv, hw, this]
          · simp [hv, hw]
        · simp [hv]
      · exact ih3

theorem length_filter_map_eq {α β : Type} (f : α → β) (p : β → Bool) (l : List α) :
    ((l.map f).filter p).length = (l.filter (fun x => p (f x))).length := by
  induction l with
  | nil => rfl
  | cons x xs ih =>
    rw [List.map_cons, List.filter_cons, List.filter_cons]
    by_cases h : p (f x) <;> simp [h, ih]

/-- Effect of one `buildStep` (one craftable map entry) on the in-degree and
adjacency maps. -/
theorem buildStep_spec (craftable : List (String × Recipe)) (item : String)
    (i : List (String × Int)) (a : List (String × List String))
    (hsome : (alistLookup craftable item).isSome) :
    (∀ v, degOf (buildStep craftable (i, a) item).1 v =
      degOf i v + (if v = item then (craftDeg craftable item : Int) else 0)) ∧
    (∀ v w, cntIn (buildStep craftable (i, a) item).2 v w =
      cntIn a v w + (if v = item then compCnt craftable item w else 0)) ∧
    (∀ w v, v ∈ depsOf (buildStep craftable (i, a) item).2 w →
      v ∈ depsOf a w ∨ v = item) := by
  cases hl : alistLookup craftable item with
  | none => rw [hl] at hsome; exact absurd hsome (by simp)
  | some recipe =>
    have hstep : buildStep craftable (i, a) item =
        recipe.components.foldl
          (fun st2 comp =>
            if (alistLookup craftable comp.componentID).isSome then
              (alistIncr st2.1 item, alistAppendDep st2.2 comp.componentID item)
            else st2)
          ((if (alistLookup i item).isSome then i else alistInsert i item 0), a) := by
      rw [buildStep, hl]
    have hens : ∀ v,
        degOf (if (alistLookup i item).isSome then i else alistInsert i item 0) v =
          degOf i v := by
      intro v
      by_cases hp : (alistLookup i item).isSome
      · rw [if_pos hp]
      · rw [if_neg hp]
        by_cases hv : v = item
        · have hnone : alistLookup i item = none := by
            cases hli : alistLookup i item
            · rfl
            · rw [hli] at hp; simp at hp
          rw [hv, degOf, degOf, alistLookup_insert_self, hnone]
          rfl
        · rw [degOf, alistLookup_insert_ne _ _ _ _ hv]
          rfl
    obtain ⟨f1, f2, f3⟩ := buildStep_fold_spec craftable item recipe.components
      (if (alistLookup i item).isSome then i else alistInsert i item 0) a
    have hdegval : (craftDeg craftable item : Int) =
        ((recipe.components.filter
          (fun c => (alistLookup craftable c.componentID).isSome)).length : Int) := by
      rw [craftDeg, hl]
      norm_cast
      exact length_filter_map_eq RecipeComponent.componentID
        (fun c => (alistLookup craftable c).isSome) recipe.components
    have hcntval : ∀ w, compCnt craftable item w =
        (if (alistLookup craftable w).isSome then
          (recipe.components.map RecipeComponent.componentID).count w else 0) := by
      intro w
      rw [compCnt, hl]
    refine ⟨?_, ?_, ?_⟩
    · intro v
      rw [hstep, f1 v, hens v]
      by_cases hv : v = item
      · rw [if_pos hv, if_pos hv, hdegval]
      · rw [if_neg hv, if_neg hv]
    · intro v w
      rw [hstep, f2 v w, hcntval w]
      by_cases hv : v = item
      · by_cases hw : (alistLookup craftable w).isSome
        · simp [hv, hw]
        · simp [hv, hw]
      · simp [hv]
    · intro w v h
      rw [hstep] at h
      exact f3 w v h

/-- Characterization of the build loop over the whole iteration order. -/
theorem buildInDeg_go (craftable : List (String × Recipe)) :
    ∀ (l : List String) (i : List (String × Int)) (a : List (String × List String)),
      l.Nodup → (∀ item ∈ l, (alistLookup craftable item).isSome) →
      (∀ v, degOf (l.foldl (buildStep craftable) (i, a)).1 v =
        degOf i v + (if v ∈ l then (craftDeg craftable v : Int) else 0)) ∧
      (∀ v w, cntIn (l.foldl (buildStep craftable) (i, a)).2 v w =
        cntIn a v w + (if v ∈ l then compCnt craftable v w else 0)) ∧
      (∀ w v, v ∈ depsOf (l.foldl (buildStep craftable) (i, a)).2 w →
        v ∈ depsOf a w ∨ v ∈ l) := by
  intro l
  induction l with
  | nil =>
    intro i a _ _
    exact ⟨fun v => by simp, fun v w => by simp, fun w v h => Or.inl h⟩
  | cons item rest ih =>
    intro i a hnd hsome
    rw [List.foldl_cons]
    have hitem : (alistLookup craftable item).isSome := hsome item (List.mem_cons_self _ _)
    obtain ⟨s1, s2, s3⟩ := buildStep_spec craftable item i a hitem
    have hnotin : item ∉ rest := (List.nodup_cons.mp hnd).1
    obtain ⟨g1, g2, g3⟩ := ih (buildStep craftable (i, a) item).1
      (buildStep craftable (i, a) item).2 (List.nodup_cons.mp hnd).2
      (fun x hx => hsome x (List.mem_cons_of_mem _ hx))
    refine ⟨?_, ?_, ?_⟩
    · intro v
      have := g1 v
      rw [Prod.mk.eta] at this
      rw [this, s1 v]
      by_cases hv : v = item
      · subst hv
        simp [hnotin]
      · by_cases hvr : v ∈ rest <;> simp [hv, hvr]
    · intro v w
      have := g2 v w
      rw [Prod.mk.eta] at this
      rw [this, s2 v w]
      by_cases hv : v = item
      · subst hv
        simp [hnotin]
      · by_cases hvr : v ∈ rest <;> simp [hv, hvr]
    · intro w v h
      have h2 : v ∈ depsOf (rest.foldl (buildStep craftable)
          ((buildStep craftable (i, a) item).1, (buildStep craftable (i, a) item).2)).2 w := by
        rw [Prod.mk.eta]
        exact h
      rcases g3 w v h2 with h3 | h3
      · rcases s3 w v h3 with h4 | h4
        · exact Or.inl h4
        · exact Or.inr (h4 ▸ List.mem_cons_self _ _)
      · exact Or.inr (List.mem_cons_of_mem _ h3)

/-- The build phase of `topologicalSort`: in-degrees are the craftable
component counts, adjacency multiplicities are the component multiplicities,
and adjacency entries only name iterated keys. -/
theorem buildInDeg_spec (craftable : List (String × Recipe)) (iterC : List String)
    (hnd : iterC.Nodup) (hsome : ∀ item ∈ iterC, (alistLookup craftable item).isSome) :
    (∀ v, degOf (buildInDeg craftable iterC).1 v =
      (if v ∈ iterC then (craftDeg craftable v : Int) else 0)) ∧
    (∀ v w, cntIn (buildInDeg craftable iterC).2 v w =
      (if v ∈ iterC then compCnt craftable v w else 0)) ∧
    (∀ w v, v ∈ depsOf (buildInDeg craftable iterC).2 w → v ∈ iterC) := by
  obtain ⟨g1, g2, g3⟩ := buildInDeg_go craftable iterC [] [] hnd hsome
  refine ⟨?_, ?_, ?_⟩
  · intro v
    have := g1 v
    rw [buildInDeg]
    rw [this]
    simp [degOf, alistLookup]
  · intro v w
    have := g2 v w
    rw [buildInDeg, this]
    simp [cntIn, depsOf, alistLookup]
  · intro w v h
    rw [buildInDeg] at h
    rcases g3 w v h with h1 | h1
    · simp [depsOf, alistLookup] at h1
    · exact h1

/-! ## Counting sums -/

/-- Total number of edges into `v` recorded in the adjacency map, summed over
an enumeration of source keys. -/
def sumCnt (adj : List (String × List String)) (v : String) (l : List String) : Nat :=
  (l.map (fun w => cntIn adj v w)).sum

theorem sumCnt_append (adj : List (String × List String)) (v : String) (l1 l2 : List String) :
    sumCnt adj v (l1 ++ l2) = sumCnt adj v l1 + sumCnt adj v l2 := by
  simp [sumCnt]

theorem sum_indicator_nodup (x : String) :
    ∀ (keys : List String), keys.Nodup →
      (keys.map (fun w => if x == w then 1 else 0)).sum = (if x ∈ keys then 1 else 0) := by
  intro keys
  induction keys with
  | nil => simp
  | cons k ks ih =>
    intro hnd
    rw [List.map_cons, List.sum_cons, ih (List.nodup_cons.mp hnd).2]
    by_cases hx : x = k
    · subst hx
      have : x ∉ ks := (List.nodup_cons.mp hnd).1
      simp [this]
    · have hbeq : ¬ (x == k) = true := by simpa using hx
      simp [hbeq, hx]

theorem sum_map_add {α : Type} (l : List α) (f g : α → Nat) :
    (l.map (fun w => f w + g w)).sum = (l.map f).sum + (l.map g).sum := by
  induction l with
  | nil => rfl
  | cons x xs ih =>
    simp only [List.map_cons, List.sum_cons, ih]
    omega

theorem sum_count_eq_filter_length (xs : List String) :
    ∀ (keys : List String), keys.Nodup →
      (keys.map (fun w => xs.count w)).sum =
        (xs.filter (fun x => decide (x ∈ keys))).length := by
  induction xs with
  | nil =>
    intro keys _
    simp
  | cons x rest ih =>
    intro keys hnd
    have hmap : keys.map (fun w => (x :: rest).count w) =
        keys.map (fun w => rest.count w + (if x == w then 1 else 0)) := by
      apply List.map_congr_left
      intro w _
      rw [List.count_cons]
    rw [hmap, sum_map_add keys (fun w => rest.count w) (fun w => if x == w then 1 else 0),
      ih keys hnd, sum_indicator_nodup x keys hnd, List.filter_cons]
    by_cases hx : x ∈ keys
    · simp [hx]
    · simp [hx]

theorem exists_perm_append_of_nodup_subset (keys sorted : List String)
    (hk : keys.Nodup) (hs : sorted.Nodup) (hsub : ∀ x ∈ sorted, x ∈ keys) :
    ∃ t : List String, keys.Perm (sorted ++ t) ∧
      (∀ w, w ∈ t ↔ (w ∈ keys ∧ w ∉ sorted)) ∧ t.Nodup := by
  classical
  refine ⟨keys.filter (fun w => !decide (w ∈ sorted)), ?_, ?_, hk.filter _⟩
  · have hperm1 := List.filter_append_perm (fun w => decide (w ∈ sorted)) keys
    have hin : List.Perm (keys.filter (fun w => decide (w ∈ sorted))) sorted := by
      apply List.Subperm.antisymm
      · exact (hk.filter _).subperm (by
          intro x hx
          have := List.mem_filter.mp hx
          simpa using this.2)
      · exact hs.subperm (by
          intro x hx
          exact List.mem_filter.mpr ⟨hsub x hx, by simpa using hx⟩)
    exact hperm1.symm.trans (hin.append_right _)
  · intro w
    simp [List.mem_filter]

theorem sumCnt_perm (adj : List (String × List String)) (v : String)
    (l1 l2 : List String) (h : l1.Perm l2) : sumCnt adj v l1 = sumCnt adj v l2 :=
  (h.map (fun w => cntIn adj v w)).sum_eq

/-- If a node's current in-degree is 0 then it has no recorded incoming edge
from any source outside `sorted`. -/
theorem no_unsorted_edge (adj : List (String × List String)) (keys sorted : List String)
    (inDeg0 inDeg : List (String × Int))
    (hk : keys.Nodup) (hs : sorted.Nodup) (hsub : ∀ x ∈ sorted, x ∈ keys)
    (hF1 : ∀ u, degOf inDeg0 u = (sumCnt adj u keys : Int))
    (hK2 : ∀ u, degOf inDeg u = degOf inDeg0 u - (sumCnt adj u sorted : Int))
    (v : String) (hdeg : degOf inDeg v = 0) :
    ∀ w, w ∈ keys → w ∉ sorted → cntIn adj v w = 0 := by
  obtain ⟨t, hperm, htmem, _⟩ := exists_perm_append_of_nodup_subset keys sorted hk hs hsub
  have hsplit : sumCnt adj v keys = sumCnt adj v sorted + sumCnt adj v t := by
    rw [sumCnt_perm adj v keys (sorted ++ t) hperm, sumCnt_append]
  have hzero : sumCnt adj v t = 0 := by
    have h2 := hK2 v
    rw [hdeg, hF1 v, hsplit] at h2
    omega
  intro w hw hws
  have hwt : w ∈ t := (htmem w).mpr ⟨hw, hws⟩
  have hle : cntIn adj v w ≤ sumCnt adj v t :=
    List.le_sum_of_mem (List.mem_map_of_mem _ hwt)
  omega

/-- An in-degree dominates the multiplicity of any single incoming edge from
an unsorted source. -/
theorem unsorted_le_deg (adj : List (String × List String)) (keys sorted : List String)
    (inDeg0 inDeg : List (String × Int))
    (hk : keys.Nodup) (hs : sorted.Nodup) (hsub : ∀ x ∈ sorted, x ∈ keys)
    (hF1 : ∀ u, degOf inDeg0 u = (sumCnt adj u keys : Int))
    (hK2 : ∀ u, degOf inDeg u = degOf inDeg0 u - (sumCnt adj u sorted : Int))
    (v current : String) (hc1 : current ∈ keys) (hc2 : current ∉ sorted) :
    (cntIn adj v current : Int) ≤ degOf inDeg v := by
  obtain ⟨t, hperm, htmem, _⟩ := exists_perm_append_of_nodup_subset keys sorted hk hs hsub
  have hsplit : sumCnt adj v keys = sumCnt adj v sorted + sumCnt adj v t := by
    rw [sumCnt_perm adj v keys (sorted ++ t) hperm, sumCnt_append]
  have hct : current ∈ t := (htmem current).mpr ⟨hc1, hc2⟩
  have hle : cntIn adj v current ≤ sumCnt adj v t :=
    List.le_sum_of_mem (List.mem_map_of_mem _ hct)
  have h2 := hK2 v
  rw [hF1 v, hsplit] at h2
  omega

/-! ## The queue-update step -/

/-- Characterization of `processDeps`: degrees drop by the edge multiplicity,
and exactly the nodes whose degree reaches 0 (with at least one incoming
edge from the processed node) are newly enqueued, each once. -/
theorem processDeps_spec :
    ∀ (deps : List String) (inDeg : List (String × Int)),
      (∀ v, (deps.count v : Int) ≤ degOf inDeg v) →
      (∀ v, degOf (processDeps inDeg deps).1 v = degOf inDeg v - deps.count v) ∧
      (∀ v, v ∈ (processDeps inDeg deps).2 ↔
        (0 < deps.count v ∧ degOf inDeg v = (deps.count v : Int))) ∧
      (processDeps inDeg deps).2.Nodup := by
  intro deps
  induction deps with
  | nil =>
    intro inDeg _
    refine ⟨fun v => by simp [processDeps], fun v => by simp [processDeps], by
      simp [processDeps]⟩
  | cons d ds ih =>
    intro inDeg hbound
    have hres : processDeps inDeg (d :: ds) =
        ((processDeps (alistInsert inDeg d (degOf inDeg d - 1)) ds).1,
         (if degOf inDeg d - 1 = 0 then [d] else []) ++
           (processDeps (alistInsert inDeg d (degOf inDeg d - 1)) ds).2) := rfl
    set inDeg1 := alistInsert inDeg d (degOf inDeg d - 1) with hInDeg1
    have hstep : ∀ v, degOf inDeg1 v = degOf inDeg v - (if v = d then 1 else 0) := by
      intro v
      by_cases hv : v = d
      · subst hv
        simp [hInDeg1, degOf, alistLookup_insert_self]
      · simp [hInDeg1, degOf, alistLookup_insert_ne _ _ _ _ hv, hv]
    have hboundd : (ds.count d : Int) + 1 ≤ degOf inDeg d := by
      have hb := hbound d
      rw [List.count_cons_self] at hb
      push_cast at hb
      omega
    have hbound2 : ∀ v, (ds.count v : Int) ≤ degOf inDeg1 v := by
      intro v
      rw [hstep v]
      by_cases hv : v = d
      · subst hv
        simp only [if_pos rfl]
        omega
      · have hb := hbound v
        rw [List.count_cons_of_ne hv] at hb
        simp only [if_neg hv]
        omega
    obtain ⟨p1, p2, p3⟩ := ih inDeg1 hbound2
    refine ⟨?_, ?_, ?_⟩
    · intro v
      rw [hres]
      simp only []
      rw [p1 v, hstep v]
      by_cases hv : v = d
      · subst hv
        rw [List.count_cons_self]
        simp only [if_pos rfl]
        push_cast
        omega
      · rw [List.count_cons_of_ne hv]
        simp only [if_neg hv]
        omega
    · intro v
      rw [hres]
      simp only [List.mem_append]
      have hmem2 : v ∈ (processDeps inDeg1 ds).2 ↔
          (0 < ds.count v ∧
            degOf inDeg v - (if v = d then 1 else 0) = (ds.count v : Int)) := by
        rw [p2 v, hstep v]
      have hmem1 : v ∈ (if degOf inDeg d - 1 = 0 then [d] else []) ↔
          (v = d ∧ degOf inDeg d = 1) := by
        by_cases hc : degOf inDeg d - 1 = 0
        · rw [if_pos hc]
          simp only [List.mem_singleton]
          constructor
          · intro h
            exact ⟨h, by omega⟩
          · intro h
            exact h.1
        · rw [if_neg hc]
          simp only [List.not_mem_nil, false_iff, not_and]
          intro _
          omega
      rw [hmem1, hmem2]
      by_cases hv : v = d
      · subst hv
        rw [List.count_cons_self]
        simp only [if_pos rfl, eq_self_iff_true, true_and]
        push_cast
        constructor
        · intro h
          rcases h with h1 | h1
          · omega
          · obtain ⟨h1a, h1b⟩ := h1
            constructor
            · omega
            · omega
        · intro h
          obtain ⟨hpos, heq⟩ := h
          by_cases hc : ds.count v = 0
          · left
            rw [hc] at heq
            push_cast at heq
            omega
          · right
            constructor
            · omega
            · omega
      · rw [List.count_cons_of_ne hv]
        simp [hv]
    · rw [hres]
      simp only []
      by_cases hc : degOf inDeg d - 1 = 0
      · rw [if_pos hc]
        have hdnot : d ∉ (processDeps inDeg1 ds).2 := by
          rw [p2 d, hstep d]
          simp only [if_pos rfl]
          intro hcontra
          obtain ⟨hpos, heq⟩ := hcontra
          omega
        simp only [List.singleton_append, List.nodup_cons]
        exact ⟨hdnot, p3⟩
      · rw [if_neg hc]
        simpa using p3

/-! ## The Kahn loop invariant -/

/-- Invariant of the Kahn queue loop, relative to the adjacency map, the key
universe and the initial in-degrees: processed and queued nodes are distinct
keys with degree 0, degrees equal the initial degree minus edges from
processed sources, undiscovered keys have nonzero degree, and the processed
prefix has no edge from an unprocessed or later node into an earlier one. -/
def KahnInv (adj : List (String × List String)) (keys : List String)
    (inDeg0 inDeg : List (String × Int)) (queue sorted : List String) : Prop :=
  (sorted ++ queue).Nodup ∧
  (∀ x ∈ sorted ++ queue, x ∈ keys) ∧
  (∀ v, degOf inDeg v = degOf inDeg0 v - (sumCnt adj v sorted : Int)) ∧
  (∀ v ∈ sorted ++ queue, degOf inDeg v = 0) ∧
  (∀ v ∈ keys, v ∉ sorted → v ∉ queue → ¬ degOf inDeg v = 0) ∧
  List.Pairwise (fun a b => cntIn adj a b = 0) sorted ∧
  (∀ v ∈ sorted, cntIn adj v v = 0)

theorem kahnInv_step (adj : List (String × List String)) (keys : List String)
    (inDeg0 inDeg : List (String × Int)) (current : String) (rest sorted : List String)
    (hk : keys.Nodup)
    (hF1 : ∀ u, degOf inDeg0 u = (sumCnt adj u keys : Int))
    (hF2 : ∀ w v, v ∈ depsOf adj w → v ∈ keys)
    (hinv : KahnInv adj keys inDeg0 inDeg (current :: rest) sorted) :
    KahnInv adj keys inDeg0 (processDeps inDeg (depsOf adj current)).1
      (rest ++ (processDeps inDeg (depsOf adj current)).2) (sorted ++ [current]) := by
  obtain ⟨hnd, hmem, hK2, hK3, hK4, hK5, hK6⟩ := hinv
  obtain ⟨hs_nd, hq_nd, hdisj⟩ := List.nodup_append.mp hnd
  have hcur_queue : current ∈ sorted ++ current :: rest :=
    List.mem_append_right _ (List.mem_cons_self _ _)
  have hcur_keys : current ∈ keys := hmem current hcur_queue
  have hcur_nots : current ∉ sorted := fun hc =>
    hdisj hc (List.mem_cons_self _ _)
  have hsub_sorted : ∀ x ∈ sorted, x ∈ keys := fun x hx =>
    hmem x (List.mem_append_left _ hx)
  have hcurdeg : degOf inDeg current = 0 := hK3 current hcur_queue
  have hcnt_count : ∀ v, (depsOf adj current).count v = cntIn adj v current := fun v => rfl
  have hbound : ∀ v, ((depsOf adj current).count v : Int) ≤ degOf inDeg v := by
    intro v
    rw [hcnt_count v]
    exact unsorted_le_deg adj keys sorted inDeg0 inDeg hk hs_nd hsub_sorted hF1 hK2
      v current hcur_keys hcur_nots
  obtain ⟨p1, p2, p3⟩ := processDeps_spec (depsOf adj current) inDeg hbound
  have hS : ∀ v, degOf inDeg v = 0 → ∀ w ∈ keys, w ∉ sorted → cntIn adj v w = 0 := by
    intro v hv w hw hws
    exact no_unsorted_edge adj keys sorted inDeg0 inDeg hk hs_nd hsub_sorted hF1 hK2
      v hv w hw hws
  have hnewly_sub : ∀ v ∈ (processDeps inDeg (depsOf adj current)).2, v ∈ keys := by
    intro v hv
    have h2 := (p2 v).mp hv
    have hvdeps : v ∈ depsOf adj current := by
      have := h2.1
      exact List.count_pos_iff_mem.mp this
    exact hF2 current v hvdeps
  have hnewly_fresh : ∀ v ∈ (processDeps inDeg (depsOf adj current)).2,
      v ∉ sorted ++ current :: rest := by
    intro v hv hvin
    have h2 := (p2 v).mp hv
    have hdeg := hK3 v hvin
    rw [hdeg] at h2
    have := h2.2
    have hpos := h2.1
    omega
  have hshape : (sorted ++ [current]) ++
      (rest ++ (processDeps inDeg (depsOf adj current)).2) =
      (sorted ++ current :: rest) ++ (processDeps inDeg (depsOf adj current)).2 := by
    simp
  refine ⟨?_, ?_, ?_, ?_, ?_, ?_, ?_⟩
  · rw [hshape]
    rw [List.nodup_append]
    refine ⟨hnd, p3, ?_⟩
    intro a ha hanew
    exact hnewly_fresh a hanew ha
  · intro x hx
    rw [hshape] at hx
    rcases List.mem_append.mp hx with hx1 | hx1
    · exact hmem x hx1
    · exact hnewly_sub x hx1
  · intro v
    rw [p1 v, hK2 v, hcnt_count v]
    have hsum : sumCnt adj v (sorted ++ [current]) =
        sumCnt adj v sorted + cntIn adj v current := by
      rw [sumCnt_append]
      simp [sumCnt]
    rw [hsum]
    push_cast
    omega
  · intro v hv
    rw [hshape] at hv
    rcases List.mem_append.mp hv with hv1 | hv1
    · have hdeg := hK3 v hv1
      rw [p1 v, hdeg, hcnt_count v]
      have hzero : cntIn adj v current = 0 := hS v hdeg current hcur_keys hcur_nots
      rw [hzero]
      simp
    · have h2 := (p2 v).mp hv1
      rw [p1 v, h2.2]
      simp
  · intro v hvk hvs hvq
    intro hdeg0
    rw [p1 v, hcnt_count v] at hdeg0
    by_cases hc : cntIn adj v current = 0
    · rw [hc] at hdeg0
      have hvdeg : degOf inDeg v = 0 := by omega
      have hvs2 : v ∉ sorted := fun hx => hvs (List.mem_append_left _ hx)
      have hvcur : ¬ v = current := fun he =>
        hvs (he ▸ List.mem_append_right _ (List.mem_singleton.mpr rfl))
      have hvrest : v ∉ rest := fun hx => hvq (List.mem_append_left _ hx)
      exact hK4 v hvk hvs2 (by
        intro hx
        rcases List.mem_cons.mp hx with he | hm
        · exact hvcur he
        · exact hvrest hm) hvdeg
    · have hvnew : v ∈ (processDeps inDeg (depsOf adj current)).2 := by
        rw [p2 v, hcnt_count v]
        constructor
        · omega
        · omega
      exact hvq (List.mem_append_right _ hvnew)
  · rw [List.pairwise_append]
    refine ⟨hK5, List.pairwise_singleton _ _, ?_⟩
    intro a ha b hb
    rw [List.mem_singleton.mp hb]
    exact hS a (hK3 a (List.mem_append_left _ ha)) current hcur_keys hcur_nots
  · intro v hv
    rcases List.mem_append.mp hv with hv1 | hv1
    · exact hK6 v hv1
    · rw [List.mem_singleton.mp hv1]
      exact hS current hcurdeg current hcur_keys hcur_nots

theorem kahnLoop_inv (adj : List (String × List String)) (keys : List String)
    (inDeg0 : List (String × Int))
    (hk : keys.Nodup)
    (hF1 : ∀ u, degOf inDeg0 u = (sumCnt adj u keys : Int))
    (hF2 : ∀ w v, v ∈ depsOf adj w → v ∈ keys) :
    ∀ (fuel : Nat) (inDeg : List (String × Int)) (queue sorted : List String),
      KahnInv adj keys inDeg0 inDeg queue sorted →
      KahnInv adj keys inDeg0 (kahnLoop adj fuel inDeg queue sorted).2.2
        (kahnLoop adj fuel inDeg queue sorted).2.1
        (kahnLoop adj fuel inDeg queue sorted).1 := by
  intro fuel
  induction fuel with
  | zero =>
    intro inDeg queue sorted hinv
    simpa [kahnLoop] using hinv
  | succ n ih =>
    intro inDeg queue sorted hinv
    cases queue with
    | nil => simpa [kahnLoop] using hinv
    | cons current rest =>
      have hstep := kahnInv_step adj keys inDeg0 inDeg current rest sorted hk hF1 hF2 hinv
      have heq : kahnLoop adj (n + 1) inDeg (current :: rest) sorted =
          kahnLoop adj n (processDeps inDeg (depsOf adj current)).1
            (rest ++ (processDeps inDeg (depsOf adj current)).2) (sorted ++ [current]) := rfl
      rw [heq]
      exact ih _ _ _ hstep

/-- Soundness of `topologicalSort`: on success (with the iteration orders
permutations of the craftable keys, as in any real execution) the returned
list is a permutation of the craftable keys in which no earlier item has a
later item — or itself — among the craftable components of its recipe. -/
theorem topologicalSort_sound (craftable : List (String × Recipe))
    (iterC iterD sorted : List String)
    (hkeys : (alistKeys craftable).Nodup)
    (hCp : iterC.Perm (alistKeys craftable))
    (hDp : iterD.Perm (alistKeys craftable))
    (h : topologicalSort craftable iterC iterD = .ok sorted) :
    sorted.Perm (alistKeys craftable) ∧
    List.Pairwise (fun a b => compCnt craftable a b = 0) sorted ∧
    (∀ v ∈ sorted, compCnt craftable v v = 0) := by
  classical
  have hCnd : iterC.Nodup := hCp.nodup_iff.mpr hkeys
  have hCsome : ∀ item ∈ iterC, (alistLookup craftable item).isSome := by
    intro item hi
    exact (alistLookup_isSome_iff craftable item).mpr (hCp.mem_iff.mp hi)
  obtain ⟨b1, b2, b3⟩ := buildInDeg_spec craftable iterC hCnd hCsome
  have hmemC : ∀ x, x ∈ iterC ↔ x ∈ alistKeys craftable := fun x => hCp.mem_iff
  have hF1 : ∀ u, degOf (buildInDeg craftable iterC).1 u =
      (sumCnt (buildInDeg craftable iterC).2 u (alistKeys craftable) : Int) := by
    intro u
    rw [b1 u]
    by_cases hu : u ∈ iterC
    · rw [if_pos hu]
      have hus : (alistLookup craftable u).isSome := hCsome u hu
      obtain ⟨r, hr⟩ := Option.isSome_iff_exists.mp hus
      have hmapeq : (alistKeys craftable).map
            (fun w => cntIn (buildInDeg craftable iterC).2 u w) =
          (alistKeys craftable).map
            (fun w => (r.components.map RecipeComponent.componentID).count w) := by
        apply List.map_congr_left
        intro w hw
        have hws : (alistLookup craftable w).isSome :=
          (alistLookup_isSome_iff craftable w).mpr hw
        rw [b2 u w, if_pos hu]
        simp [compCnt, hr, hws]
      rw [sumCnt, hmapeq,
        sum_count_eq_filter_length (r.components.map RecipeComponent.componentID)
          (alistKeys craftable) hkeys]
      simp only [craftDeg, hr]
      congr 2
      apply List.filter_congr
      intro c _
      by_cases hc : c ∈ alistKeys craftable
      · simp [hc, (alistLookup_isSome_iff craftable c).mpr hc]
      · have : ¬ (alistLookup craftable c).isSome := fun hx =>
          hc ((alistLookup_isSome_iff craftable c).mp hx)
        simp [hc, this]
    · rw [if_neg hu]
      have hmapeq : (alistKeys craftable).map
            (fun w => cntIn (buildInDeg craftable iterC).2 u w) =
          (alistKeys craftable).map (fun _ => 0) := by
        apply List.map_congr_left
        intro w _
        rw [b2 u w, if_neg hu]
      simp [sumCnt, hmapeq]
  have hF2 : ∀ w v, v ∈ depsOf (buildInDeg craftable iterC).2 w →
      v ∈ alistKeys craftable := by
    intro w v hv
    exact (hmemC v).mp (b3 w v hv)
  have hDnd : iterD.Nodup := hDp.nodup_iff.mpr hkeys
  have hinv0 : KahnInv (buildInDeg craftable iterC).2 (alistKeys craftable)
      (buildInDeg craftable iterC).1 (buildInDeg craftable iterC).1
      (iterD.filter (fun k => (alistLookup (buildInDeg craftable iterC).1 k).getD 0 = 0))
      [] := by
    refine ⟨?_, ?_, ?_, ?_, ?_, List.Pairwise.nil, ?_⟩
    · simpa using hDnd.filter _
    · intro x hx
      simp only [List.nil_append, List.mem_filter] at hx
      exact hDp.mem_iff.mp hx.1
    · intro v
      simp [sumCnt]
    · intro v hv
      simp only [List.nil_append, List.mem_filter] at hv
      have := hv.2
      simpa [degOf] using this
    · intro v hvk _ hvq hdeg
      apply hvq
      apply List.mem_filter.mpr
      refine ⟨hDp.mem_iff.mpr hvk, ?_⟩
      simpa [degOf] using hdeg
    · intro v hv
      exact absurd hv (List.not_mem_nil v)
  have hinvF := kahnLoop_inv (buildInDeg craftable iterC).2 (alistKeys craftable)
    (buildInDeg craftable iterC).1 hkeys hF1 hF2
    (kahnMeasure (buildInDeg craftable iterC).1
      (iterD.filter (fun k => (alistLookup (buildInDeg craftable iterC).1 k).getD 0 = 0)))
    (buildInDeg craftable iterC).1
    (iterD.filter (fun k => (alistLookup (buildInDeg craftable iterC).1 k).getD 0 = 0))
    [] hinv0
  simp only [topologicalSort] at h
  split at h
  case isFalse => exact absurd h (by simp)
  case isTrue hlen =>
    have hsorted : (kahnLoop (buildInDeg craftable iterC).2
        (kahnMeasure (buildInDeg craftable iterC).1
          (iterD.filter (fun k => (alistLookup (buildInDeg craftable iterC).1 k).getD 0 = 0)))
        (buildInDeg craftable iterC).1
        (iterD.filter (fun k => (alistLookup (buildInDeg craftable iterC).1 k).getD 0 = 0))
        []).1 = sorted := by
      injection h
    rw [hsorted] at hinvF hlen
    obtain ⟨f1, f2, _, _, _, f6, f7⟩ := hinvF
    have hnd : sorted.Nodup := (List.nodup_append.mp f1).1
    have hsub : ∀ x ∈ sorted, x ∈ alistKeys craftable := fun x hx =>
      f2 x (List.mem_append_left _ hx)
    have hsp : sorted.Subperm (alistKeys craftable) := hnd.subperm hsub
    have hklen : (alistKeys craftable).length = craftable.length := by
      simp [alistKeys]
    have hperm : sorted.Perm (alistKeys craftable) := by
      apply hsp.perm_of_length_le
      omega
    refine ⟨hperm, ?_, ?_⟩
    · refine List.Pairwise.imp_of_mem ?_ f6
      intro a b ha _ hab
      have := b2 a b
      rw [if_pos ((hmemC a).mpr (hsub a ha))] at this
      rw [← this]
      exact hab
    · intro v hv
      have := b2 v v
      rw [if_pos ((hmemC v).mpr (hsub v hv))] at this
      rw [← this]
      exact f7 v hv

/-! ## C4: mutual recipe cycles -/

theorem pairwise_or_of_mem {α : Type} {R : α → α → Prop} :
    ∀ {l : List α}, l.Pairwise R → ∀ {a b : α}, a ∈ l → b ∈ l → a ≠ b → R a b ∨ R b a := by
  intro l hl
  induction hl with
  | nil =>
    intro a b ha _ _
    exact absurd ha (List.not_mem_nil _)
  | cons hhead _ ih =>
    intro a b ha hb hne
    rcases List.mem_cons.mp ha with rfl | ha2
    · rcases List.mem_cons.mp hb with rfl | hb2
      · exact absurd rfl hne
      · exact Or.inl (hhead b hb2)
    · rcases List.mem_cons.mp hb with rfl | hb2
      · exact Or.inr (hhead a ha2)
      · exact ih ha2 hb2 hne

/-- C4 counterexample: `cycle3Catalog` contains two recipes whose outputs are
components of each other (`recipe_a`/`recipe_b`) and whose ids include the
requested target, yet `BillOfMaterials` succeeds: the canonical selector
replaces `recipe_b` by the cheaper third producer of `item_y`, so no cycle is
reachable and the mutual-cycle premise alone does not force an error. -/
theorem c4_mutual_cycle_counterexample :
    (∃ A ∈ cycle3Catalog, ∃ B ∈ cycle3Catalog,
      A.output.itemID ∈ B.components.map RecipeComponent.componentID ∧
      B.output.itemID ∈ A.components.map RecipeComponent.componentID ∧
      getRecipe cycle3Catalog "recipe_a" = some A) ∧
    (billOfMaterials cycle3Catalog ⟨"recipe_a", 1⟩ id id).isOk = true := by
  constructor
  · refine ⟨(⟨"recipe_a", "A", 1, [⟨"item_y", 1⟩], ⟨"item_x", 1⟩⟩ : Recipe), by decide,
      (⟨"recipe_b", "B", 1, [⟨"item_x", 1⟩], ⟨"item_y", 1⟩⟩ : Recipe), by decide,
      by decide, by decide, by decide⟩
  · decide

/-- C4 (amended): when the two mutually dependent recipes are moreover the
canonical producers of their output items and the request resolves to one of
them, `BillOfMaterials` always returns an error and never a plan. -/
theorem c4_canonical_mutual_cycle_errors (catalog : List Recipe)
    (req : BillOfMaterialsRequest) (sC sD : List String → List String)
    (A B : Recipe)
    (hsC : ∀ l : List String, (sC l).Perm l)
    (hsD : ∀ l : List String, (sD l).Perm l)
    (hA : alistLookup (buildOutputToRecipe catalog) A.output.itemID = some A)
    (hB : alistLookup (buildOutputToRecipe catalog) B.output.itemID = some B)
    (hAB : B.output.itemID ∈ A.components.map RecipeComponent.componentID)
    (hBA : A.output.itemID ∈ B.components.map RecipeComponent.componentID)
    (hget : getRecipe catalog req.recipeID = some A) :
    ∃ e, billOfMaterials catalog req sC sD = .error e := by
  cases hc : bomCore catalog req sC sD with
  | error e =>
    exact ⟨e, by rw [billOfMaterials, hc]; rfl⟩
  | ok st =>
    exfalso
    obtain ⟨st1, sorted, hget2, hdfs, htopo, hcraft, hsorted, hqty, htbl⟩ :=
      bomCore_ok_elim catalog req sC sD st hc
    rw [hget] at hget2
    have htA : st.targetRecipe = A := (Option.some.inj hget2).symm
    rw [htA] at hdfs
    set out2r := alistLookup (buildOutputToRecipe catalog) with hout2r
    have hrel := dfsFold_rel (DfsRel out2r) (dfsRel_refl out2r) (dfsRel_trans out2r)
      (fun cc s s' hv => dfs_rel out2r (dfsFuel catalog) cc s s' hv) _ _ _ hdfs
    obtain ⟨hvmono, hkmono, hconf, hvk, hnodup⟩ := hrel
    have hnd1 : (alistKeys st1.craftable).Nodup := by
      apply hnodup
      simp [alistKeys]
    have hinv : ∀ c, c ∈ st1.visited → (out2r c).isSome = true →
        c ∈ alistKeys st1.craftable := by
      apply hvk
      intro c hcv _
      exact absurd hcv (List.not_mem_nil c)
    have hBin : B.output.itemID ∈ st1.visited :=
      dfsFold_ok_visited out2r (dfsFuel catalog) _ _ _ hdfs B.output.itemID hAB
    have hBkey : B.output.itemID ∈ alistKeys st1.craftable :=
      hinv _ hBin (by rw [hB]; rfl)
    obtain ⟨rB, hrB⟩ := Option.isSome_iff_exists.mp
      ((alistLookup_isSome_iff st1.craftable B.output.itemID).mpr hBkey)
    have hAkey : A.output.itemID ∈ alistKeys st1.craftable := by
      apply hkmono
      simp [alistKeys]
    obtain ⟨rA, hrA⟩ := Option.isSome_iff_exists.mp
      ((alistLookup_isSome_iff st1.craftable A.output.itemID).mpr hAkey)
    have hrAeq : rA = A := by
      rcases hconf _ _ hrA with h0 | h0
      · simp only [alistLookup, if_pos] at h0
        exact (Option.some.inj h0).symm
      · rw [hA] at h0
        exact (Option.some.inj h0).symm
    obtain ⟨hperm, hpair, hself⟩ := topologicalSort_sound st1.craftable
      (sC (alistKeys st1.craftable)) (sD (alistKeys st1.craftable)) sorted
      hnd1 (hsC _) (hsD _) htopo
    by_cases houts : B.output.itemID = A.output.itemID
    · have hAA : A.output.itemID ∈ A.components.map RecipeComponent.componentID := by
        rw [← houts]
        exact hAB
      have hcnt : 0 < compCnt st1.craftable A.output.itemID A.output.itemID := by
        have hs : (alistLookup st1.craftable A.output.itemID).isSome = true := by
          rw [hrA]; rfl
        simp only [compCnt, hrA, hrAeq, hs, if_pos]
        exact List.count_pos_iff_mem.mpr hAA
      have hz := hself A.output.itemID (hperm.mem_iff.mpr hAkey)
      omega
    · have hrBeq : rB = B := by
        rcases hconf _ _ hrB with h0 | h0
        · simp only [alistLookup, if_neg houts] at h0
          exact Option.noConfusion h0
        · rw [hB] at h0
          exact (Option.some.inj h0).symm
      have hsA : (alistLookup st1.craftable A.output.itemID).isSome = true := by
        rw [hrA]; rfl
      have hsB : (alistLookup st1.craftable B.output.itemID).isSome = true := by
        rw [hrB]; rfl
      have hcnt1 : 0 < compCnt st1.craftable A.output.itemID B.output.itemID := by
        simp only [compCnt, hrA, hrAeq, hsB, if_pos]
        exact List.count_pos_iff_mem.mpr hAB
      have hcnt2 : 0 < compCnt st1.craftable B.output.itemID A.output.itemID := by
        simp only [compCnt, hrB, hrBeq, hsA, if_pos]
        exact List.count_pos_iff_mem.mpr hBA
      have hmemA : A.output.itemID ∈ sorted := hperm.mem_iff.mpr hAkey
      have hmemB : B.output.itemID ∈ sorted := hperm.mem_iff.mpr hBkey
      rcases pairwise_or_of_mem hpair hmemA hmemB (fun he => houts he.symm) with h0 | h0
      · omega
      · omega

/-- C4 witness: on the plain two-recipe mutual cycle the amended premises
hold and the computation errors. -/
theorem c4_witness :
    ∃ e, billOfMaterials cycle2Catalog ⟨"recipe_a", 1⟩ id id = .error e :=
  c4_canonical_mutual_cycle_errors cycle2Catalog ⟨"recipe_a", 1⟩ id id
    ⟨"recipe_a", "A", 1, [⟨"item_y", 1⟩], ⟨"item_x", 1⟩⟩
    ⟨"recipe_b", "B", 1, [⟨"item_x", 1⟩], ⟨"item_y", 1⟩⟩
    (fun l => List.Perm.refl l) (fun l => List.Perm.refl l)
    (by decide) (by decide) (by decide) (by decide) (by decide)

/-! ## Sorting by item id: permutation and sortedness -/

theorem insertSorted_perm {α : Type} (key : α → String) (x : α) :
    ∀ l : List α, (insertSorted key x l).Perm (x :: l) := by
  intro l
  induction l with
  | nil => exact List.Perm.refl _
  | cons y ys ih =>
    rw [insertSorted]
    by_cases h : strLt (key x) (key y) = true
    · rw [if_pos h]
    · rw [if_neg h]
      exact (ih.cons y).trans (List.Perm.swap x y ys)

theorem sortByKey_perm {α : Type} (key : α → String) :
    ∀ l : List α, (sortByKey key l).Perm l := by
  intro l
  induction l with
  | nil => exact List.Perm.refl _
  | cons x xs ih =>
    rw [sortByKey, List.foldr_cons]
    exact (insertSorted_perm key x _).trans (ih.cons x)

theorem insertSorted_sorted {α : Type} (key : α → String) (x : α) :
    ∀ l : List α, List.Pairwise (fun a b => strLt (key b) (key a) = false) l →
      List.Pairwise (fun a b => strLt (key b) (key a) = false) (insertSorted key x l) := by
  intro l
  induction l with
  | nil =>
    intro _
    exact List.pairwise_singleton _ _
  | cons y ys ih =>
    intro hp
    rw [insertSorted]
    obtain ⟨hy, hys⟩ := List.pairwise_cons.mp hp
    by_cases hxy : strLt (key x) (key y) = true
    · rw [if_pos hxy]
      refine List.pairwise_cons.mpr ⟨?_, hp⟩
      intro z hz
      rcases List.mem_cons.mp hz with rfl | hz2
      · exact strLt_asymm _ _ hxy
      · by_contra hzx
        have hzx2 : strLt (key z) (key x) = true := by
          cases hc : strLt (key z) (key x) with
          | false => exact absurd hc hzx
          | true => rfl
        have hzy := strLt_trans _ _ _ hzx2 hxy
        have := hy z hz2
        rw [hzy] at this
        exact Bool.noConfusion this
    · rw [if_neg hxy]
      have hxy2 : strLt (key x) (key y) = false := by
        cases hc : strLt (key x) (key y) with
        | true => exact absurd hc hxy
        | false => rfl
      refine List.pairwise_cons.mpr ⟨?_, ih hys⟩
      intro z hz
      have hz2 := (insertSorted_perm key x ys).mem_iff.mp hz
      rcases List.mem_cons.mp hz2 with rfl | hz3
      · exact hxy2
      · exact hy z hz3

theorem sortByKey_sorted {α : Type} (key : α → String) :
    ∀ l : List α, List.Pairwise (fun a b => strLt (key b) (key a) = false) (sortByKey key l) := by
  intro l
  induction l with
  | nil => exact List.Pairwise.nil
  | cons x xs ih =>
    rw [sortByKey, List.foldr_cons]
    exact insertSorted_sorted key x _ ih

/-! ## Demand-fold lookup-preservation lemmas -/

/-- An item with zero pending demand (or no recipe) leaves the state alone. -/
theorem demandStep_zero (craftable : List (String × Recipe))
    (st : List (String × Int) × List (String × Int)) (item : String)
    (hd : (alistLookup st.1 item).getD 0 = 0) :
    demandStep craftable st item = st := by
  obtain ⟨dem, runs⟩ := st
  cases hcr : alistLookup craftable item with
  | none => exact demandStep_none craftable dem runs item hcr
  | some recipe => exact demandStep_skip craftable dem runs item recipe hcr hd

/-- Processing items other than the only demanded one changes nothing. -/
theorem demand_fold_skip_all (craftable : List (String × Recipe)) (t : String) (qty : Int) :
    ∀ items : List String, (∀ a ∈ items, a ≠ t) →
      items.foldl (demandStep craftable) ([(t, qty)], []) = ([(t, qty)], []) := by
  intro items
  induction items with
  | nil => intro _; rfl
  | cons a rest ih =>
    intro h
    rw [List.foldl_cons, demandStep_zero craftable _ a (by
      have hne : a ≠ t := h a (List.mem_cons_self _ _)
      simp [alistLookup, hne])]
    exact ih (fun x hx => h x (List.mem_cons_of_mem _ hx))

/-- The component fold of a demand step leaves keys it never names alone. -/
theorem comps_fold_lookup_ne (n : Int) (c : String) :
    ∀ (comps : List RecipeComponent), (∀ comp ∈ comps, comp.componentID ≠ c) →
      ∀ dm : List (String × Int),
        alistLookup (comps.foldl (fun dm2 comp =>
          alistInsert dm2 comp.componentID
            (((alistLookup dm2 comp.componentID).getD 0) + n * comp.quantity)) dm) c =
        alistLookup dm c := by
  intro comps
  induction comps with
  | nil => intro _ dm; rfl
  | cons comp rest ih =>
    intro h dm
    rw [List.foldl_cons, ih (fun x hx => h x (List.mem_cons_of_mem _ hx))]
    exact alistLookup_insert_ne _ _ _ _ (fun he => h comp (List.mem_cons_self _ _) he.symm)

/-- A demand step for an item whose recipe does not name `c` leaves the
pending demand of `c` alone. -/
theorem demandStep_dem_lookup (craftable : List (String × Recipe))
    (st : List (String × Int) × List (String × Int)) (item c : String)
    (h : ∀ rec, alistLookup craftable item = some rec →
      c ∉ rec.components.map RecipeComponent.componentID) :
    alistLookup (demandStep craftable st item).1 c = alistLookup st.1 c := by
  obtain ⟨dem, runs⟩ := st
  cases hcr : alistLookup craftable item with
  | none => rw [demandStep_none craftable dem runs item hcr]
  | some recipe =>
    by_cases hd : (alistLookup dem item).getD 0 = 0
    · rw [demandStep_skip craftable dem runs item recipe hcr hd]
    · rw [demandStep_run craftable dem runs item recipe hcr hd]
      refine comps_fold_lookup_ne _ c recipe.components ?_ dem
      intro comp hcm he
      exact h recipe hcr (he ▸ List.mem_map_of_mem RecipeComponent.componentID hcm)

/-- A demand step only writes the craft runs of its own item. -/
theorem demandStep_runs_lookup (craftable : List (String × Recipe))
    (st : List (String × Int) × List (String × Int)) (item c : String)
    (h : ¬ c = item) :
    alistLookup (demandStep craftable st item).2 c = alistLookup st.2 c := by
  obtain ⟨dem, runs⟩ := st
  cases hcr : alistLookup craftable item with
  | none => rw [demandStep_none craftable dem runs item hcr]
  | some recipe =>
    by_cases hd : (alistLookup dem item).getD 0 = 0
    · rw [demandStep_skip craftable dem runs item recipe hcr hd]
    · rw [demandStep_run craftable dem runs item recipe hcr hd]
      exact alistLookup_insert_ne _ _ _ _ h

theorem demand_fold_dem_lookup (craftable : List (String × Recipe)) (c : String) :
    ∀ items : List String,
      (∀ b ∈ items, ∀ rec, alistLookup craftable b = some rec →
        c ∉ rec.components.map RecipeComponent.componentID) →
      ∀ st : List (String × Int) × List (String × Int),
        alistLookup (items.foldl (demandStep craftable) st).1 c = alistLookup st.1 c := by
  intro items
  induction items with
  | nil => intro _ st; rfl
  | cons b rest ih =>
    intro h st
    rw [List.foldl_cons, ih (fun x hx => h x (List.mem_cons_of_mem _ hx)),
      demandStep_dem_lookup craftable st b c (h b (List.mem_cons_self _ _))]

theorem demand_fold_runs_lookup (craftable : List (String × Recipe)) (c : String) :
    ∀ items : List String, c ∉ items →
      ∀ st : List (String × Int) × List (String × Int),
        alistLookup (items.foldl (demandStep craftable) st).2 c = alistLookup st.2 c := by
  intro items
  induction items with
  | nil => intro _ st; rfl
  | cons b rest ih =>
    intro h st
    rw [List.foldl_cons, ih (fun hx => h (List.mem_cons_of_mem _ hx)),
      demandStep_runs_lookup craftable st b c (fun he => h (he ▸ List.mem_cons_self _ _))]

/-! ## C6: craft runs are exact ceilings of final demand -/

/-- Packaging of a successful `bomCore` run: distinct craftable keys, the
sorted order is a permutation of them with no forward or self component
edges, the tables are the demand fold over the reversed order, and the
target item is craftable. -/
theorem bomCore_sound_tables (catalog : List Recipe) (req : BillOfMaterialsRequest)
    (sC sD : List String → List String) (st : BOMState)
    (hsC : ∀ l : List String, (sC l).Perm l)
    (hsD : ∀ l : List String, (sD l).Perm l)
    (h : bomCore catalog req sC sD = .ok st) :
    (alistKeys st.craftable).Nodup ∧
    st.sortedBottomUp.Perm (alistKeys st.craftable) ∧
    List.Pairwise (fun a b => compCnt st.craftable a b = 0) st.sortedBottomUp ∧
    (∀ v ∈ st.sortedBottomUp, compCnt st.craftable v v = 0) ∧
    (st.demand, st.runs) = st.sortedBottomUp.reverse.foldl (demandStep st.craftable)
      ([(st.targetRecipe.output.itemID, st.qty)], []) ∧
    st.targetRecipe.output.itemID ∈ alistKeys st.craftable := by
  obtain ⟨st1, sorted, hget, hdfs, htopo, hcraft, hsorted, hqty, htbl⟩ :=
    bomCore_ok_elim catalog req sC sD st h
  set out2r := alistLookup (buildOutputToRecipe catalog) with hout2r
  have hrel := dfsFold_rel (DfsRel out2r) (dfsRel_refl out2r) (dfsRel_trans out2r)
    (fun cc s s' hv => dfs_rel out2r (dfsFuel catalog) cc s s' hv) _ _ _ hdfs
  have hnd1 : (alistKeys st1.craftable).Nodup := by
    apply hrel.2.2.2.2
    simp [alistKeys]
  have htkey : st.targetRecipe.output.itemID ∈ alistKeys st1.craftable := by
    apply hrel.2.1
    simp [alistKeys]
  obtain ⟨hperm, hpair, hself⟩ := topologicalSort_sound st1.craftable
    (sC (alistKeys st1.craftable)) (sD (alistKeys st1.craftable)) sorted
    hnd1 (hsC _) (hsD _) htopo
  rw [← hcraft] at hnd1 htkey hperm hpair hself
  rw [← hsorted] at hperm hpair hself
  refine ⟨hnd1, hperm, hpair, hself, ?_, htkey⟩
  rw [htbl, demandPhase, hcraft, hsorted]

/-- In a successful run, the recorded craft runs of any craftable item with
nonzero final demand are exactly the ceiling of that demand over the output
quantity: items processed after it in top-down order never touch its demand
(no forward component edge), so the demand read at processing time is the
final one. -/
theorem bomCore_runs_spec (catalog : List Recipe) (req : BillOfMaterialsRequest)
    (sC sD : List String → List String) (st : BOMState)
    (hsC : ∀ l : List String, (sC l).Perm l)
    (hsD : ∀ l : List String, (sD l).Perm l)
    (h : bomCore catalog req sC sD = .ok st) :
    ∀ c r, alistLookup st.craftable c = some r →
      ¬ (alistLookup st.demand c).getD 0 = 0 →
      alistLookup st.runs c =
        some (ceilRuns ((alistLookup st.demand c).getD 0) r.output.quantity) := by
  obtain ⟨hnd, hperm, hpair, hself, htbl, _⟩ :=
    bomCore_sound_tables catalog req sC sD st hsC hsD h
  intro c r hcr hdem
  have hckey : c ∈ alistKeys st.craftable :=
    (alistLookup_isSome_iff _ _).mp (by rw [hcr]; rfl)
  have hcsorted : c ∈ st.sortedBottomUp := hperm.mem_iff.mpr hckey
  obtain ⟨P, S, hPS⟩ := List.append_of_mem hcsorted
  have hsnd : st.sortedBottomUp.Nodup := hperm.nodup_iff.mpr hnd
  rw [hPS] at hsnd
  obtain ⟨hPnd, hcSnd, hdisj⟩ := List.nodup_append.mp hsnd
  have hcP : c ∉ P := fun hx => hdisj hx (List.mem_cons_self _ _)
  have hcross : ∀ b ∈ P, compCnt st.craftable b c = 0 := by
    rw [hPS] at hpair
    intro b hb
    exact (List.pairwise_append.mp hpair).2.2 b hb c (List.mem_cons_self _ _)
  have hcc : compCnt st.craftable c c = 0 := hself c hcsorted
  have hsomec : (alistLookup st.craftable c).isSome = true := by rw [hcr]; rfl
  have hnotouch : ∀ b, compCnt st.craftable b c = 0 → ∀ rec,
      alistLookup st.craftable b = some rec →
      c ∉ rec.components.map RecipeComponent.componentID := by
    intro b hz rec hrec hmem
    simp only [compCnt, hrec, hsomec, if_pos] at hz
    exact (List.count_eq_zero.mp hz) hmem
  have hrev : st.sortedBottomUp.reverse = S.reverse ++ c :: P.reverse := by
    rw [hPS]
    simp
  rw [hrev, List.foldl_append, List.foldl_cons] at htbl
  cases hmid : S.reverse.foldl (demandStep st.craftable)
      ([(st.targetRecipe.output.itemID, st.qty)], []) with
  | mk dm rn =>
    rw [hmid] at htbl
    have hd1 : st.demand =
        (P.reverse.foldl (demandStep st.craftable) (demandStep st.craftable (dm, rn) c)).1 :=
      congrArg Prod.fst htbl
    have hr1 : st.runs =
        (P.reverse.foldl (demandStep st.craftable) (demandStep st.craftable (dm, rn) c)).2 :=
      congrArg Prod.snd htbl
    have hPrev : ∀ b ∈ P.reverse, ∀ rec, alistLookup st.craftable b = some rec →
        c ∉ rec.components.map RecipeComponent.componentID := by
      intro b hb
      exact hnotouch b (hcross b (List.mem_reverse.mp hb))
    have hcnoc : ∀ rec, alistLookup st.craftable c = some rec →
        c ∉ rec.components.map RecipeComponent.componentID := hnotouch c hcc
    have hdem_eq : alistLookup st.demand c = alistLookup dm c := by
      rw [hd1, demand_fold_dem_lookup st.craftable c P.reverse hPrev,
        demandStep_dem_lookup st.craftable (dm, rn) c c hcnoc]
    have hdmid : ¬ (alistLookup dm c).getD 0 = 0 := by
      rw [← hdem_eq]
      exact hdem
    have hstep := demandStep_run st.craftable dm rn c r hcr hdmid
    have hruns_eq : alistLookup st.runs c =
        some (ceilRuns ((alistLookup dm c).getD 0) r.output.quantity) := by
      rw [hr1, demand_fold_runs_lookup st.craftable c P.reverse
        (fun hx => hcP (List.mem_reverse.mp hx)), hstep]
      exact alistLookup_insert_self _ _ _
    rw [hdem_eq]
    exact hruns_eq

/-- C6: in a successful run every craftable item with nonzero accumulated
demand gets craft runs equal to the exact ceiling of demand over output
quantity — at least one run, production covers demand, and no smaller run
count does. -/
theorem c6_craft_runs_ceiling (catalog : List Recipe) (req : BillOfMaterialsRequest)
    (sC sD : List String → List String) (st : BOMState)
    (hsC : ∀ l : List String, (sC l).Perm l)
    (hsD : ∀ l : List String, (sD l).Perm l)
    (hq : ∀ r ∈ catalog, 1 ≤ r.output.quantity)
    (hcomp : ∀ r ∈ catalog, ∀ comp ∈ r.components, 0 ≤ comp.quantity)
    (h : bomCore catalog req sC sD = .ok st) :
    ∀ c r, alistLookup st.craftable c = some r →
      ¬ (alistLookup st.demand c).getD 0 = 0 →
      alistLookup st.runs c =
        some (ceilRuns ((alistLookup st.demand c).getD 0) r.output.quantity) ∧
      1 ≤ ceilRuns ((alistLookup st.demand c).getD 0) r.output.quantity ∧
      (alistLookup st.demand c).getD 0 ≤
        ceilRuns ((alistLookup st.demand c).getD 0) r.output.quantity * r.output.quantity ∧
      (∀ m : Int, (alistLookup st.demand c).getD 0 ≤ m * r.output.quantity →
        ceilRuns ((alistLookup st.demand c).getD 0) r.output.quantity ≤ m) := by
  intro c r hcr hdem
  have hvals := bomCore_craftable_vals catalog req sC sD st h
  have hq1 : 1 ≤ r.output.quantity := hq r (hvals c r hcr).1
  obtain ⟨st1, sorted, hget, hdfs, htopo, hcraft, hsorted, hqty, htables⟩ :=
    bomCore_ok_elim catalog req sC sD st h
  have hqpos := bomCore_qty_pos catalog req sC sD st h
  have Hq1 : ∀ cc rr, alistLookup st1.craftable cc = some rr → 1 ≤ rr.output.quantity := by
    rw [← hcraft]
    exact fun cc rr hl => hq rr (hvals cc rr hl).1
  have Hcomp1 : ∀ cc rr, alistLookup st1.craftable cc = some rr →
      ∀ comp ∈ rr.components, 0 ≤ comp.quantity := by
    rw [← hcraft]
    exact fun cc rr hl comp hcm => hcomp rr (hvals cc rr hl).1 comp hcm
  have hinv := demandPhase_invariant st1.craftable Hq1 Hcomp1 sorted.reverse
    [(st.targetRecipe.output.itemID, st.qty)] []
    (by
      intro k v hl
      simp only [alistLookup] at hl
      by_cases hk : k = st.targetRecipe.output.itemID
      · rw [if_pos hk] at hl
        cases hl
        omega
      · rw [if_neg hk] at hl
        exact Option.noConfusion hl)
    (by
      intro k n hl
      simp only [alistLookup] at hl
      exact Option.noConfusion hl)
  have hdemeq : st.demand = (sorted.reverse.foldl (demandStep st1.craftable)
      ([(st.targetRecipe.output.itemID, st.qty)], [])).1 := by
    have := congrArg Prod.fst htables
    simpa [demandPhase] using this
  have hdemnn : ∀ k v, alistLookup st.demand k = some v → 0 ≤ v := by
    rw [hdemeq]
    exact hinv.1
  have hd1 : 1 ≤ (alistLookup st.demand c).getD 0 := by
    cases hl : alistLookup st.demand c with
    | none => rw [hl] at hdem; simp at hdem
    | some w =>
      have hnn := hdemnn c w hl
      rw [hl] at hdem
      simp only [Option.getD_some] at hdem ⊢
      omega
  exact ⟨bomCore_runs_spec catalog req sC sD st hsC hsD h c r hcr hdem,
    ceilRuns_pos _ _ hd1 hq1, ceilRuns_mul_ge _ _ hq1,
    fun m hm => ceilRuns_le _ _ m hq1 hm⟩

/-- A two-recipe catalog realizing the spec's 7/3 ceiling example: one pack
needs 7 widgets and widgets are produced 3 per run. -/
def demo73Catalog : List Recipe :=
  [ ⟨"craft_pack", "Pack", 2, [⟨"widget", 7⟩], ⟨"pack", 1⟩⟩,
    ⟨"make_widget", "Widget", 4, [⟨"ore", 1⟩], ⟨"widget", 3⟩⟩ ]

/-- C6 witness: on the 7/3 catalog the theorem applies to `widget` (demand 7,
output 3 per run) and yields exactly 3 runs; the assembled plan reports
craft_runs 3, total_produced 9, total_needed 7. -/
theorem c6_witness :
    ((billOfMaterials demo73Catalog ⟨"craft_pack", 1⟩ id id).toOption.map
        (fun resp => resp.intermediates.map
          (fun it => (it.itemID, it.craftRuns, it.totalProduced, it.totalNeeded))) =
      some [("widget", 3, 9, 7)]) ∧
    (∃ st, bomCore demo73Catalog ⟨"craft_pack", 1⟩ id id = .ok st ∧
      (alistLookup st.demand "widget").getD 0 = 7 ∧
      alistLookup st.runs "widget" = some (ceilRuns 7 3) ∧
      alistLookup st.runs "widget" = some 3) := by
  refine ⟨by decide, ?_⟩
  cases hb : bomCore demo73Catalog ⟨"craft_pack", 1⟩ id id with
  | error e =>
    have hok : (bomCore demo73Catalog ⟨"craft_pack", 1⟩ id id).isOk = true := by decide
    rw [hb] at hok
    exact Bool.noConfusion hok
  | ok st =>
    have h7 : (bomCore demo73Catalog ⟨"craft_pack", 1⟩ id id).map
        (fun s => (alistLookup s.demand "widget").getD 0) = .ok 7 := by decide
    have hlook : (bomCore demo73Catalog ⟨"craft_pack", 1⟩ id id).map
        (fun s => alistLookup s.craftable "widget") =
        .ok (some ⟨"make_widget", "Widget", 4, [⟨"ore", 1⟩], ⟨"widget", 3⟩⟩) := by decide
    rw [hb] at h7 hlook
    simp only [Except.map] at h7 hlook
    have h7eq : (alistLookup st.demand "widget").getD 0 = 7 := Except.ok.inj h7
    have hlookeq : alistLookup st.craftable "widget" =
        some ⟨"make_widget", "Widget", 4, [⟨"ore", 1⟩], ⟨"widget", 3⟩⟩ := Except.ok.inj hlook
    obtain ⟨hr, _, _, _⟩ := c6_craft_runs_ceiling demo73Catalog ⟨"craft_pack", 1⟩ id id st
      (fun l => List.Perm.refl l) (fun l => List.Perm.refl l) (by decide) (by decide) hb
      "widget" ⟨"make_widget", "Widget", 4, [⟨"ore", 1⟩], ⟨"widget", 3⟩⟩ hlookeq
      (by rw [h7eq]; decide)
    rw [h7eq] at hr
    refine ⟨st, rfl, h7eq, hr, ?_⟩
    rw [hr]
    decide

/-! ## C7: craft-step numbering, ordering and sorted material lists -/

/-- Consecutive integers `start, start+1, …` of the given length (the
expected shape of the step-number column). -/
def intRange (start : Int) : Nat → List Int
  | 0 => []
  | n + 1 => start :: intRange (start + 1) n

theorem craftStepsOf_none (craftable : List (String × Recipe)) (runs : List (String × Int))
    (c : String) (rest : List String) (num : Int)
    (h : alistLookup craftable c = none) :
    craftStepsOf craftable runs (c :: rest) num = craftStepsOf craftable runs rest num := by
  rw [craftStepsOf, h]

theorem craftStepsOf_skip (craftable : List (String × Recipe)) (runs : List (String × Int))
    (c : String) (rest : List String) (num : Int) (recipe : Recipe)
    (h : alistLookup craftable c = some recipe)
    (hz : (alistLookup runs c).getD 0 = 0) :
    craftStepsOf craftable runs (c :: rest) num = craftStepsOf craftable runs rest num := by
  rw [craftStepsOf, h]
  simp [hz]

theorem craftStepsOf_emit (craftable : List (String × Recipe)) (runs : List (String × Int))
    (c : String) (rest : List String) (num : Int) (recipe : Recipe)
    (h : alistLookup craftable c = some recipe)
    (hz : ¬ (alistLookup runs c).getD 0 = 0) :
    craftStepsOf craftable runs (c :: rest) num =
      { stepNumber := num, recipeID := recipe.id, recipeName := recipe.name,
        craftRuns := (alistLookup runs c).getD 0, outputItemID := recipe.output.itemID,
        outputPerRun := recipe.output.quantity } ::
        craftStepsOf craftable runs rest (num + 1) := by
  rw [craftStepsOf, h]
  simp [hz]

/-- Whether the craft-step walk emits a step for an item. -/
def emitsStep (craftable : List (String × Recipe)) (runs : List (String × Int))
    (c : String) : Bool :=
  (alistLookup craftable c).isSome && !(decide ((alistLookup runs c).getD 0 = 0))

/-- The output-item column of the craft steps is the emitted sublist of the
walked order (craftable entries always produce their key). -/
theorem craftStepsOf_map_outputs (craftable : List (String × Recipe))
    (runs : List (String × Int))
    (hvals : ∀ c r, alistLookup craftable c = some r → r.output.itemID = c) :
    ∀ (order : List String) (num : Int),
      (craftStepsOf craftable runs order num).map BOMCraftStep.outputItemID =
        order.filter (emitsStep craftable runs) := by
  intro order
  induction order with
  | nil =>
    intro num
    rfl
  | cons c rest ih =>
    intro num
    cases hcr : alistLookup craftable c with
    | none =>
      rw [craftStepsOf_none craftable runs c rest num hcr, ih num, List.filter_cons]
      have he : emitsStep craftable runs c = false := by simp [emitsStep, hcr]
      simp [he]
    | some recipe =>
      by_cases hz : (alistLookup runs c).getD 0 = 0
      · rw [craftStepsOf_skip craftable runs c rest num recipe hcr hz, ih num,
          List.filter_cons]
        have he : emitsStep craftable runs c = false := by simp [emitsStep, hz]
        simp [he]
      · rw [craftStepsOf_emit craftable runs c rest num recipe hcr hz, List.map_cons,
          ih (num + 1), List.filter_cons]
        have he : emitsStep craftable runs c = true := by simp [emitsStep, hcr, hz]
        simp [he, hvals c recipe hcr]

/-- The step-number column is consecutive from the starting number. -/
theorem craftStepsOf_numbers (craftable : List (String × Recipe))
    (runs : List (String × Int)) :
    ∀ (order : List String) (num : Int),
      (craftStepsOf craftable runs order num).map BOMCraftStep.stepNumber =
        intRange num (craftStepsOf craftable runs order num).length := by
  intro order
  induction order with
  | nil =>
    intro num
    rfl
  | cons c rest ih =>
    intro num
    cases hcr : alistLookup craftable c with
    | none => rw [craftStepsOf_none craftable runs c rest num hcr, ih num]
    | some recipe =>
      by_cases hz : (alistLookup runs c).getD 0 = 0
      · rw [craftStepsOf_skip craftable runs c rest num recipe hcr hz, ih num]
      · rw [craftStepsOf_emit craftable runs c rest num recipe hcr hz, List.map_cons,
          ih (num + 1), List.length_cons, intRange]

/-- Every craft step is built from a craftable entry: its recipe id, name and
output item are those of the entry's recipe. -/
theorem craftStepsOf_mem (craftable : List (String × Recipe)) (runs : List (String × Int)) :
    ∀ (order : List String) (num : Int) (s : BOMCraftStep),
      s ∈ craftStepsOf craftable runs order num →
      ∃ c recipe, alistLookup craftable c = some recipe ∧ s.recipeID = recipe.id ∧
        s.outputItemID = recipe.output.itemID := by
  intro order
  induction order with
  | nil =>
    intro num s hs
    exact absurd hs (List.not_mem_nil s)
  | cons c rest ih =>
    intro num s hs
    cases hcr : alistLookup craftable c with
    | none =>
      rw [craftStepsOf_none craftable runs c rest num hcr] at hs
      exact ih num s hs
    | some recipe =>
      by_cases hz : (alistLookup runs c).getD 0 = 0
      · rw [craftStepsOf_skip craftable runs c rest num recipe hcr hz] at hs
        exact ih num s hs
      · rw [craftStepsOf_emit craftable runs c rest num recipe hcr hz] at hs
        rcases List.mem_cons.mp hs with rfl | hs2
        · exact ⟨c, recipe, hcr, rfl, rfl⟩
        · exact ih (num + 1) s hs2

/-- C7: in every successful plan the step numbers are `1, 2, …` in order,
raw materials and intermediates are sorted ascending by item id, no earlier
craft step's recipe consumes a later step's output item (equivalently every
step comes after the steps of the craftable items it consumes), and the last
step produces the target item. -/
theorem c7_plan_ordering (catalog : List Recipe) (req : BillOfMaterialsRequest)
    (sC sD : List String → List String) (resp : BillOfMaterialsResponse)
    (hsC : ∀ l : List String, (sC l).Perm l)
    (hsD : ∀ l : List String, (sD l).Perm l)
    (hq : ∀ r ∈ catalog, 1 ≤ r.output.quantity)
    (h : billOfMaterials catalog req sC sD = .ok resp) :
    (resp.craftSteps.map BOMCraftStep.stepNumber = intRange 1 resp.craftSteps.length) ∧
    List.Pairwise (fun a b => strLt b.itemID a.itemID = false) resp.rawMaterials ∧
    List.Pairwise (fun a b => strLt b.itemID a.itemID = false) resp.intermediates ∧
    (∃ st, bomCore catalog req sC sD = .ok st ∧
      List.Pairwise (fun a b => compCnt st.craftable a.outputItemID b.outputItemID = 0)
        resp.craftSteps ∧
      resp.craftSteps.getLast?.map BOMCraftStep.outputItemID = some resp.outputItemID) := by
  rw [billOfMaterials] at h
  obtain ⟨st, hcore, hassemble⟩ := except_map_ok bomAssemble _ resp h
  subst hassemble
  obtain ⟨hnd, hperm, hpair, hself, htbl, htkey⟩ :=
    bomCore_sound_tables catalog req sC sD st hsC hsD hcore
  have hvals0 := bomCore_craftable_vals catalog req sC sD st hcore
  have hvals : ∀ c r, alistLookup st.craftable c = some r → r.output.itemID = c :=
    fun c r hl => (hvals0 c r hl).2
  have hmapout := craftStepsOf_map_outputs st.craftable st.runs hvals st.sortedBottomUp 1
  have hpair2 : List.Pairwise (fun a b => compCnt st.craftable a b = 0)
      ((craftStepsOf st.craftable st.runs st.sortedBottomUp 1).map
        BOMCraftStep.outputItemID) := by
    rw [hmapout]
    exact List.Pairwise.sublist (List.filter_sublist _) hpair
  have hpairSteps : List.Pairwise
      (fun a b => compCnt st.craftable a.outputItemID b.outputItemID = 0)
      (craftStepsOf st.craftable st.runs st.sortedBottomUp 1) :=
    List.pairwise_map.mp hpair2
  have htsorted : st.targetRecipe.output.itemID ∈ st.sortedBottomUp :=
    hperm.mem_iff.mpr htkey
  obtain ⟨P, S, hPS⟩ := List.append_of_mem htsorted
  have hsnd : st.sortedBottomUp.Nodup := hperm.nodup_iff.mpr hnd
  rw [hPS] at hsnd
  obtain ⟨hPnd, htSnd, hdisj⟩ := List.nodup_append.mp hsnd
  have htP : st.targetRecipe.output.itemID ∉ P := fun hx =>
    hdisj hx (List.mem_cons_self _ _)
  have htS : st.targetRecipe.output.itemID ∉ S := (List.nodup_cons.mp htSnd).1
  have hrev : st.sortedBottomUp.reverse =
      S.reverse ++ st.targetRecipe.output.itemID :: P.reverse := by
    rw [hPS]
    simp
  rw [hrev, List.foldl_append] at htbl
  have hskip : S.reverse.foldl (demandStep st.craftable)
      ([(st.targetRecipe.output.itemID, st.qty)], []) =
      ([(st.targetRecipe.output.itemID, st.qty)], []) :=
    demand_fold_skip_all st.craftable st.targetRecipe.output.itemID st.qty S.reverse
      (fun a ha he => htS (he ▸ List.mem_reverse.mp ha))
  rw [hskip, List.foldl_cons] at htbl
  have htsome : (alistLookup st.craftable st.targetRecipe.output.itemID).isSome :=
    (alistLookup_isSome_iff _ _).mpr htkey
  obtain ⟨rt, hrt⟩ := Option.isSome_iff_exists.mp htsome
  have hq1t : 1 ≤ rt.output.quantity := hq rt (hvals0 _ rt hrt).1
  have hqpos := bomCore_qty_pos catalog req sC sD st hcore
  have hdt : ¬ (alistLookup [(st.targetRecipe.output.itemID, st.qty)]
      st.targetRecipe.output.itemID).getD 0 = 0 := by
    simp [alistLookup]
    omega
  have hstep := demandStep_run st.craftable [(st.targetRecipe.output.itemID, st.qty)] []
    st.targetRecipe.output.itemID rt hrt hdt
  have hr1 : st.runs = (P.reverse.foldl (demandStep st.craftable)
      (demandStep st.craftable ([(st.targetRecipe.output.itemID, st.qty)], [])
        st.targetRecipe.output.itemID)).2 := congrArg Prod.snd htbl
  have hrunt : alistLookup st.runs st.targetRecipe.output.itemID =
      some (ceilRuns ((alistLookup [(st.targetRecipe.output.itemID, st.qty)]
        st.targetRecipe.output.itemID).getD 0) rt.output.quantity) := by
    rw [hr1, demand_fold_runs_lookup st.craftable st.targetRecipe.output.itemID P.reverse
      (fun hx => htP (List.mem_reverse.mp hx)), hstep]
    exact alistLookup_insert_self _ _ _
  have hn1 : 1 ≤ ceilRuns ((alistLookup [(st.targetRecipe.output.itemID, st.qty)]
      st.targetRecipe.output.itemID).getD 0) rt.output.quantity := by
    refine ceilRuns_pos _ _ ?_ hq1t
    simp [alistLookup]
    omega
  have hrunsS : ∀ a ∈ S, alistLookup st.runs a = none := by
    intro a ha
    have hat : ¬ a = st.targetRecipe.output.itemID := fun he => htS (he ▸ ha)
    have haP : a ∉ P.reverse := fun hx =>
      hdisj (List.mem_reverse.mp hx) (List.mem_cons_of_mem _ ha)
    rw [hr1, demand_fold_runs_lookup st.craftable a P.reverse haP, hstep]
    exact alistLookup_insert_ne _ _ _ _ hat
  have hemT : emitsStep st.craftable st.runs st.targetRecipe.output.itemID = true := by
    simp [emitsStep, hrt, hrunt]
    omega
  have hemS : ∀ a ∈ S, emitsStep st.craftable st.runs a = false := by
    intro a ha
    simp [emitsStep, hrunsS a ha]
  have hfilter : st.sortedBottomUp.filter (emitsStep st.craftable st.runs) =
      P.filter (emitsStep st.craftable st.runs) ++ [st.targetRecipe.output.itemID] := by
    rw [hPS, List.filter_append, List.filter_cons]
    have hSnil : S.filter (emitsStep st.craftable st.runs) = [] :=
      List.filter_eq_nil_iff.mpr (fun a ha => by simp [hemS a ha])
    rw [hSnil, hemT]
    simp
  have hlast : (craftStepsOf st.craftable st.runs st.sortedBottomUp 1).getLast?.map
      BOMCraftStep.outputItemID = some st.targetRecipe.output.itemID := by
    rw [← List.getLast?_map, hmapout, hfilter]
    exact List.getLast?_concat _
  refine ⟨?_, ?_, ?_, st, hcore, ?_, ?_⟩
  · exact craftStepsOf_numbers st.craftable st.runs st.sortedBottomUp 1
  · exact sortByKey_sorted BOMItem.itemID _
  · exact sortByKey_sorted BOMIntermediate.itemID _
  · exact hpairSteps
  · exact hlast

/-- C7 witness: the §8 scanner plan exhibits consecutive numbering, sorted
material lists and the target step last. -/
theorem c7_witness :
    (∀ r ∈ scannerCatalog, 1 ≤ r.output.quantity) ∧
    (∃ resp, billOfMaterials scannerCatalog ⟨"craft_scanner_1", 1⟩ id id = .ok resp ∧
      resp.craftSteps.map BOMCraftStep.stepNumber = intRange 1 resp.craftSteps.length ∧
      List.Pairwise (fun a b => strLt b.itemID a.itemID = false) resp.rawMaterials ∧
      List.Pairwise (fun a b => strLt b.itemID a.itemID = false) resp.intermediates ∧
      resp.craftSteps.getLast?.map BOMCraftStep.outputItemID = some resp.outputItemID) := by
  refine ⟨by decide, ?_⟩
  cases hb : billOfMaterials scannerCatalog ⟨"craft_scanner_1", 1⟩ id id with
  | error e =>
    have hok : (billOfMaterials scannerCatalog ⟨"craft_scanner_1", 1⟩ id id).isOk = true := by
      decide
    rw [hb] at hok
    exact Bool.noConfusion hok
  | ok resp =>
    obtain ⟨h1, h2, h3, st, hcore, hpw, hlast⟩ :=
      c7_plan_ordering scannerCatalog ⟨"craft_scanner_1", 1⟩ id id resp
        (fun l => List.Perm.refl l) (fun l => List.Perm.refl l) (by decide) hb
    exact ⟨resp, rfl, h1, h2, h3, hlast⟩

/-! ## C8: diamond dependencies use one canonical recipe everywhere -/

theorem alistLookup_of_mem_nodup {α : Type} :
    ∀ (m : List (String × α)), (alistKeys m).Nodup →
      ∀ (k : String) (v : α), (k, v) ∈ m → alistLookup m k = some v := by
  intro m
  induction m with
  | nil =>
    intro _ k v hm
    exact absurd hm (List.not_mem_nil _)
  | cons p rest ih =>
    intro hnd k v hm
    rw [alistKeys_cons] at hnd
    obtain ⟨hp1, hrest⟩ := List.nodup_cons.mp hnd
    rcases List.mem_cons.mp hm with rfl | hm2
    · simp [alistLookup]
    · by_cases hk : k = p.1
      · exfalso
        apply hp1
        rw [← hk]
        exact List.mem_map.mpr ⟨(k, v), hm2, rfl⟩
      · simp only [alistLookup, if_neg hk]
        exact ih hrest k v hm2

theorem map_filter_key_nil {α β : Type} (f : (String × α) → β) (g : β → String)
    (hg : ∀ p, g (f p) = p.1) (q : (String × α) → Bool) (k : String) :
    ∀ m : List (String × α), k ∉ alistKeys m →
      ((m.filter q).map f).filter (fun b => decide (g b = k)) = [] := by
  intro m
  induction m with
  | nil => intro _; rfl
  | cons p rest ih =>
    intro hk
    rw [alistKeys_cons] at hk
    have hne : ¬ g (f p) = k := by
      rw [hg]
      exact fun he => hk (he ▸ List.mem_cons_self _ _)
    rw [List.filter_cons]
    by_cases hq : q p = true
    · rw [if_pos hq, List.map_cons, List.filter_cons,
        if_neg (by simp [hne] : ¬ (decide (g (f p) = k) = true))]
      exact ih (fun hx => hk (List.mem_cons_of_mem _ hx))
    · rw [if_neg hq]
      exact ih (fun hx => hk (List.mem_cons_of_mem _ hx))

/-- In an association list with distinct keys, filtering the mapped entries
passing `q` down to those with key `k` leaves exactly the image of the one
`k`-entry (when it passes `q`). -/
theorem map_filter_key_single {α β : Type} (f : (String × α) → β) (g : β → String)
    (hg : ∀ p, g (f p) = p.1) (q : (String × α) → Bool) (k : String) (v : α) :
    ∀ m : List (String × α), (alistKeys m).Nodup → alistLookup m k = some v →
      q (k, v) = true →
      ((m.filter q).map f).filter (fun b => decide (g b = k)) = [f (k, v)] := by
  intro m
  induction m with
  | nil =>
    intro _ hl
    simp [alistLookup] at hl
  | cons p rest ih =>
    intro hnd hl hq
    rw [alistKeys_cons] at hnd
    obtain ⟨hp1, hrest⟩ := List.nodup_cons.mp hnd
    by_cases hk : k = p.1
    · have hv : p.2 = v := by
        simp only [alistLookup, if_pos hk] at hl
        exact Option.some.inj hl
      have hpk : p = (k, v) := by
        rw [hk, ← hv]
      subst hpk
      rw [List.filter_cons, if_pos hq, List.map_cons, List.filter_cons,
        if_pos (by rw [hg]; simp : (decide (g (f (k, v)) = k) = true))]
      rw [map_filter_key_nil f g hg q k rest hp1]
    · have hl2 : alistLookup rest k = some v := by
        simp only [alistLookup, if_neg hk] at hl
        exact hl
      rw [List.filter_cons]
      by_cases hqp : q p = true
      · have hne : ¬ g (f p) = k := by
          rw [hg]
          exact fun he => hk he.symm
        rw [if_pos hqp, List.map_cons, List.filter_cons,
          if_neg (by simp [hne] : ¬ (decide (g (f p) = k) = true))]
        exact ih hrest hl2 hq
      · rw [if_neg hqp]
        exact ih hrest hl2 hq

/-- C8: every craftable entry of a successful run is consulted consistently:
off-target items carry the canonical producer chosen once by the
output-to-recipe map, the intermediates list has exactly one entry per such
item — built from that same recipe — and every craft step that outputs the
item uses that same recipe. -/
theorem c8_diamond_consistency (catalog : List Recipe) (req : BillOfMaterialsRequest)
    (sC sD : List String → List String) (st : BOMState)
    (h : bomCore catalog req sC sD = .ok st) :
    ∀ c r, alistLookup st.craftable c = some r →
      (¬ c = st.targetRecipe.output.itemID →
        alistLookup (buildOutputToRecipe catalog) c = some r) ∧
      (¬ (alistLookup st.runs c).getD 0 = 0 → ¬ c = st.targetRecipe.output.itemID →
        (intermediatesOf st.craftable st.demand st.runs
            st.targetRecipe.output.itemID).filter (fun it => it.itemID = c) =
          [{ itemID := c, recipeID := r.id, recipeName := r.name,
             craftRuns := (alistLookup st.runs c).getD 0,
             totalProduced := ((alistLookup st.runs c).getD 0) * r.output.quantity,
             totalNeeded := (alistLookup st.demand c).getD 0 }]) ∧
      (∀ s ∈ craftStepsOf st.craftable st.runs st.sortedBottomUp 1,
        s.outputItemID = c → s.recipeID = r.id) := by
  intro c r hcr
  obtain ⟨st1, sorted, hget, hdfs, htopo, hcraft, hsorted, hqty, htbl⟩ :=
    bomCore_ok_elim catalog req sC sD st h
  have hrel := dfsFold_rel (DfsRel (alistLookup (buildOutputToRecipe catalog)))
    (dfsRel_refl _) (dfsRel_trans _)
    (fun cc s s' hv => dfs_rel _ (dfsFuel catalog) cc s s' hv) _ _ _ hdfs
  have hnd : (alistKeys st.craftable).Nodup := by
    rw [hcraft]
    apply hrel.2.2.2.2
    simp [alistKeys]
  have hvals : ∀ cc rr, alistLookup st.craftable cc = some rr → rr.output.itemID = cc :=
    fun cc rr hl => (bomCore_craftable_vals catalog req sC sD st h cc rr hl).2
  refine ⟨?_, ?_, ?_⟩
  · intro hct
    rcases bomCore_craftable_conform catalog req sC sD st h c r hcr with ⟨hc1, _⟩ | hcan
    · exact absurd hc1 hct
    · exact hcan
  · intro hrun0 hct
    rw [intermediatesOf]
    refine List.Perm.eq_singleton ?_
    refine (List.Perm.filter _ (sortByKey_perm BOMIntermediate.itemID _)).trans ?_
    rw [map_filter_key_single _ BOMIntermediate.itemID (fun p => rfl) _ c r st.craftable
      hnd hcr (by simp [hrun0, hct])]
  · intro s hs hsc
    obtain ⟨cc, recipe, hlook2, hrid, hout⟩ :=
      craftStepsOf_mem st.craftable st.runs st.sortedBottomUp 1 s hs
    have hccc : cc = c := by
      rw [← hsc, hout]
      exact (hvals cc recipe hlook2).symm
    rw [hccc] at hlook2
    rw [hcr] at hlook2
    rw [hrid, Option.some.inj hlook2]

/-- C8 witness: on the §8 catalog, `refined_circuits` is demanded both by the
scanner and by the sensor unit (a diamond), yet the intermediates list holds
exactly one entry for it, built from the canonical `refine_circuits` recipe,
and every step outputting it uses that recipe. -/
theorem c8_witness :
    ∃ st, bomCore scannerCatalog ⟨"craft_scanner_1", 1⟩ id id = .ok st ∧
      alistLookup (buildOutputToRecipe scannerCatalog) "refined_circuits" =
        some ⟨"refine_circuits", "Refine Circuits", 5,
          [⟨"ore_copper", 6⟩, ⟨"ore_silicon", 3⟩], ⟨"refined_circuits", 2⟩⟩ ∧
      (intermediatesOf st.craftable st.demand st.runs
          st.targetRecipe.output.itemID).filter
        (fun it => it.itemID = "refined_circuits") =
        [{ itemID := "refined_circuits", recipeID := "refine_circuits",
           recipeName := "Refine Circuits", craftRuns := 2, totalProduced := 4,
           totalNeeded := 3 }] ∧
      (∀ s ∈ craftStepsOf st.craftable st.runs st.sortedBottomUp 1,
        s.outputItemID = "refined_circuits" → s.recipeID = "refine_circuits") := by
  cases hb : bomCore scannerCatalog ⟨"craft_scanner_1", 1⟩ id id with
  | error e =>
    have hok : (bomCore scannerCatalog ⟨"craft_scanner_1", 1⟩ id id).isOk = true := by decide
    rw [hb] at hok
    exact Bool.noConfusion hok
  | ok st =>
    have hlookm : (bomCore scannerCatalog ⟨"craft_scanner_1", 1⟩ id id).map
        (fun s => alistLookup s.craftable "refined_circuits") =
        .ok (some ⟨"refine_circuits", "Refine Circuits", 5,
          [⟨"ore_copper", 6⟩, ⟨"ore_silicon", 3⟩], ⟨"refined_circuits", 2⟩⟩) := by decide
    have hrunm : (bomCore scannerCatalog ⟨"craft_scanner_1", 1⟩ id id).map
        (fun s => (alistLookup s.runs "refined_circuits").getD 0) = .ok 2 := by decide
    have hdemm : (bomCore scannerCatalog ⟨"craft_scanner_1", 1⟩ id id).map
        (fun s => (alistLookup s.demand "refined_circuits").getD 0) = .ok 3 := by decide
    have htgtm : (bomCore scannerCatalog ⟨"craft_scanner_1", 1⟩ id id).map
        (fun s => s.targetRecipe.output.itemID) = .ok "scanner_1" := by decide
    rw [hb] at hlookm hrunm hdemm htgtm
    simp only [Except.map] at hlookm hrunm hdemm htgtm
    have hlook := Except.ok.inj hlookm
    have hrun := Except.ok.inj hrunm
    have hdem := Except.ok.inj hdemm
    have htgt := Except.ok.inj htgtm
    obtain ⟨hcanon, hinter, hsteps⟩ := c8_diamond_consistency scannerCatalog
      ⟨"craft_scanner_1", 1⟩ id id st hb "refined_circuits"
      ⟨"refine_circuits", "Refine Circuits", 5,
        [⟨"ore_copper", 6⟩, ⟨"ore_silicon", 3⟩], ⟨"refined_circuits", 2⟩⟩ hlook
    have hne : ¬ "refined_circuits" = st.targetRecipe.output.itemID := by
      rw [htgt]
      decide
    have hI := hinter (by rw [hrun]; decide) hne
    rw [hrun, hdem] at hI
    refine ⟨st, rfl, by decide, ?_, hsteps⟩
    rw [hI]
    decide
